import Mathlib

/-!
# Shallow embedding of the p3Heap allocator

This file embeds the heap allocator of the repository (the `blockHeader`
based best-fit allocator with `best_block`, `balloc`, `bfree`, `coalesce`
and `init_heap`) and proves/refutes the frozen claims about it.

Modelling choices:

* Memory is word granular: `Mem := Int → Nat` maps a byte offset (relative
  to the start of the `mmap`ed region, which is page aligned, hence a
  multiple of 8) to the 32-bit word (`size_status` value) stored at that
  offset.  Every read and write performed by the allocator is a 4-byte
  `int` access at a 4-aligned offset, so this captures the source exactly.
  Offset `0` is the 4-byte alignment padding word skipped by `init_heap`;
  offset `4` is `heap_start`.
* All stored `size_status` values in the source are non-negative machine
  ints, so words are modelled as `Nat`; `size_status & ~3` becomes
  `szOf ss = ss - ss % 4` and the status bits are `ss % 2` (bit 0,
  a-bit) and `ss &&& 2` (bit 1, p-bit).
* Pointers/offsets are `Int` so that the pointer arithmetic of the source
  (which may go below `heap_start`) is exact.
* Words of the region never written by the allocator read as `0`,
  matching the `/dev/zero` mapping made by `init_heap`.
* `best_block`'s scan is given fuel `N / 8 + 1`, which is at least (number
  of blocks + 1) for every well-formed heap, so the scan behaves exactly
  like the unbounded C loop wherever the C loop terminates.
-/

namespace P3Heap

/-- Word-granular memory of the mapped region: byte offset ↦ stored word. -/
def Mem : Type := Int → Nat

/-- Write the word `v` at byte offset `o`. -/
def wr (m : Mem) (o : Int) (v : Nat) : Mem := fun x => if x = o then v else m x

/-- `size_status & ~3`: the block size with the two status bits cleared. -/
def szOf (ss : Nat) : Nat := ss - ss % 4

/-- The allocator state: the region's memory together with `alloc_size`
(the value of the global after `init_heap` subtracted the 8 bytes for
alignment padding and end mark).  `heap_start` is the block at offset 4,
the end mark sits at offset `4 + N`. -/
structure Heap where
  mem : Mem
  N : Nat

/-- `sizeof(blockHeader)`. -/
def headerSize : Nat := 4

/-- The offset of the end mark. -/
def endMark (h : Heap) : Int := 4 + (h.N : Int)

/-- The scanning loop of `best_block`: walk from `current`, keeping the
best fit found so far in `fit`.  Stops at a word equal to 1 (the end
mark) or with `size_status & ~3 == 0` (the `blockSize <= 0` break). -/
def bestBlockGo (m : Mem) (size : Nat) : Nat → Int → Option Int → Option Int
  | 0, _, fit => fit
  | Nat.succ fuel, current, fit =>
    let ss := m current
    if ss = 1 then fit
    else
      let blockSize := szOf ss
      if blockSize = 0 then fit
      else
        let fit1 :=
          if ss % 2 = 0 ∧ size ≤ blockSize then
            match fit with
            | none => some current
            | some f => if blockSize < szOf (m f) then some current else fit
          else fit
        bestBlockGo m size fuel (current + (blockSize : Int)) fit1

/-- `best_block`: best-fit search, including the final
`(fit->size_status & ~3) < size` recheck of the source. -/
def best_block (h : Heap) (size : Nat) : Option Int :=
  match bestBlockGo h.mem size (h.N / 8 + 1) 4 none with
  | none => none
  | some f => if szOf (h.mem f) < size then none else some f

/-- The second half of `coalesce` (the "check the next block" step),
operating on the block/size pair left by the first half. -/
def coalesceRight (m : Mem) (block : Int) (blockSize : Nat) : Mem :=
  let nextHeader : Int := block + (blockSize : Int)
  if m nextHeader ≠ 1 ∧ (m nextHeader) % 2 = 0 then
    let nextBlockSize := szOf (m nextHeader)
    let newBlockSize := blockSize + nextBlockSize
    let m2 := wr m block newBlockSize
    wr m2 (nextHeader + (nextBlockSize : Int) - 4) newBlockSize
  else m

/-- `coalesce`: merge the just-freed block at offset `block` with its
immediate left neighbour (found through the word just before the block,
read as a footer) and its immediate right neighbour, when free. -/
def coalesce (m : Mem) (block : Int) : Mem :=
  let blockSize := szOf (m block)
  let prevFooter : Int := block - 4
  let prevBlockSize := m prevFooter
  let prevHeader : Int := prevFooter - (prevBlockSize : Int) + 4
  let step1 : Mem × Int × Nat :=
    if 4 ≤ prevFooter ∧ (m prevHeader) % 2 = 0 then
      let newBlockSize := blockSize + prevBlockSize
      let m1 := wr m prevHeader newBlockSize
      let m2 := wr m1 (block + (blockSize : Int) - 4) newBlockSize
      (m2, prevHeader, newBlockSize)
    else (m, block, blockSize)
  coalesceRight step1.1 step1.2.1 step1.2.2

/-- The two `return NULL` reasons of `balloc`, named by branch (the C
function merges them into `NULL`). -/
inductive AllocErr where
  | invalidSize : AllocErr
  | outOfMemory : AllocErr
deriving DecidableEq, Repr

/-- The four `return -1` reasons of `bfree`, named by branch, in the
order the source checks them (the C function merges them into `-1`). -/
inductive FreeErr where
  | nullPointer : FreeErr
  | misaligned : FreeErr
  | doubleFree : FreeErr
  | outOfRange : FreeErr
deriving DecidableEq, Repr

/-- `(size + headerSize + 7) & ~7`: the requested size plus the header,
rounded up to a multiple of 8 (`balloc` computes it for `size >= 1`, so
the value is the non-negative `size + 4` rounded up). -/
def roundedSize (size : Int) : Nat := (size.toNat + headerSize + 7) / 8 * 8

/-- `balloc`.  Returns the payload offset on success; the heap is
threaded through so that failure visibly leaves it unchanged.
`remaining` is exact as a `Nat` subtraction because `best_block` only
returns blocks with `size_status & ~3 >= rounded` (its final recheck). -/
def balloc (h : Heap) (size : Int) : Except AllocErr Int × Heap :=
  if size < 1 then (Except.error AllocErr.invalidSize, h)
  else
    let rounded : Nat := roundedSize size
    match best_block h rounded with
    | none => (Except.error AllocErr.outOfMemory, h)
    | some fit =>
      let fss := h.mem fit
      let remaining := szOf fss - rounded
      let m1 :=
        if headerSize + 8 ≤ remaining then
          let ma := wr h.mem (fit + (rounded : Int)) remaining
          let mb := wr ma (fit + (rounded : Int) + (remaining : Int) - (headerSize : Int))
            remaining
          wr mb fit (rounded ||| 1 ||| (fss &&& 2))
        else
          wr h.mem fit (fss ||| 1)
      let nextBlock : Int := fit + (szOf (m1 fit) : Int)
      let m2 := wr m1 nextBlock (m1 nextBlock ||| 2)
      (Except.ok (fit + 4), { mem := m2, N := h.N })

/-- `bfree`.  The checks appear in source order: null, misaligned,
already-free, out-of-range. -/
def bfree (h : Heap) (ptr : Int) : Option FreeErr × Heap :=
  if ptr = 0 then (some FreeErr.nullPointer, h)
  else if ptr % 8 ≠ 0 then (some FreeErr.misaligned, h)
  else
    let b : Int := ptr - 4
    if (h.mem b) % 2 = 0 then (some FreeErr.doubleFree, h)
    else if b < 4 ∨ h.mem b = 1 then (some FreeErr.outOfRange, h)
    else
      let blockSize := szOf (h.mem b)
      let m1 := wr h.mem b (szOf (h.mem b))
      let m2 := wr m1 (b + (blockSize : Int) - 4) blockSize
      (none, { mem := coalesce m2 b, N := h.N })

/-- The all-zero contents of the freshly mapped `/dev/zero` region. -/
def zeroMem : Mem := fun _ => 0

/-- The heap produced by a successful `init_heap` whose (page padded)
region holds `N + 8` bytes: end mark := 1, first header := `N`,
first header += 2 (p-bit), footer := `N`, in source order. -/
def mkHeap (N : Nat) : Heap :=
  let m1 := wr zeroMem (4 + (N : Int)) 1
  let m2 := wr m1 4 N
  let m3 := wr m2 4 (m2 4 + 2)
  let m4 := wr m3 (4 + (N : Int) - 4) N
  { mem := m4, N := N }

/-- `IsChain m o e os`: starting at offset `o`, the headers in memory `m`
describe a gap-free run of blocks whose offsets are exactly the list
`os`, ending exactly at offset `e`.  Each block's size (`size_status`
with status bits cleared) is a positive multiple of 8. -/
def IsChain (m : Mem) : Int → Int → List Int → Prop
  | o, e, [] => o = e
  | o, e, a :: rest => a = o ∧ szOf (m o) % 8 = 0 ∧ 8 ≤ szOf (m o) ∧
      IsChain m (o + (szOf (m o) : Int)) e rest

/-! ### Arithmetic facts about the status-bit operations -/

theorem lor_one_even (x : Nat) (h : x % 2 = 0) : x ||| 1 = x + 1 := by
  obtain ⟨k, rfl⟩ : ∃ k, x = 2 * k := ⟨x / 2, by omega⟩
  have h1 : (2 * k) = Nat.bit false k := by simp [Nat.bit_false]
  have h2 : (1 : Nat) = Nat.bit true 0 := by simp [Nat.bit_true]
  rw [h1, h2, Nat.lor_bit]
  simp [Nat.bit_true]

theorem lor_one_odd (x : Nat) (h : x % 2 = 1) : x ||| 1 = x := by
  obtain ⟨k, rfl⟩ : ∃ k, x = 2 * k + 1 := ⟨x / 2, by omega⟩
  have h1 : (2 * k + 1) = Nat.bit true k := by simp [Nat.bit_true]
  have h2 : (1 : Nat) = Nat.bit true 0 := by simp [Nat.bit_true]
  rw [h1, h2, Nat.lor_bit]
  simp [Nat.bit_true]

theorem lor_two_eq (x : Nat) : x ||| 2 = 2 * ((x / 2) ||| 1) + x % 2 := by
  have h2 : (2 : Nat) = Nat.bit false 1 := by simp [Nat.bit_false]
  rcases Nat.mod_two_eq_zero_or_one x with h | h
  · obtain ⟨k, rfl⟩ : ∃ k, x = 2 * k := ⟨x / 2, by omega⟩
    have hd : (2 * k) / 2 = k := by omega
    have hm : (2 * k) % 2 = 0 := by omega
    have h1 : (2 * k) = Nat.bit false k := by simp [Nat.bit_false]
    rw [hd, hm, h1, h2, Nat.lor_bit]
    simp [Nat.bit_false]
  · obtain ⟨k, rfl⟩ : ∃ k, x = 2 * k + 1 := ⟨x / 2, by omega⟩
    have hd : (2 * k + 1) / 2 = k := by omega
    have hm : (2 * k + 1) % 2 = 1 := by omega
    have h1 : (2 * k + 1) = Nat.bit true k := by simp [Nat.bit_true]
    rw [hd, hm, h1, h2, Nat.lor_bit]
    simp [Nat.bit_true]

theorem and_two_eq (x : Nat) : x &&& 2 = 2 * (x / 2 % 2) := by
  have h2 : (2 : Nat) = Nat.bit false 1 := by simp [Nat.bit_false]
  rcases Nat.mod_two_eq_zero_or_one x with h | h
  · obtain ⟨k, rfl⟩ : ∃ k, x = 2 * k := ⟨x / 2, by omega⟩
    have hd : (2 * k) / 2 = k := by omega
    have h1 : (2 * k) = Nat.bit false k := by simp [Nat.bit_false]
    rw [hd, h1, h2, Nat.land_bit]
    simp [Nat.bit_false, Nat.and_one_is_mod]
  · obtain ⟨k, rfl⟩ : ∃ k, x = 2 * k + 1 := ⟨x / 2, by omega⟩
    have hd : (2 * k + 1) / 2 = k := by omega
    have h1 : (2 * k + 1) = Nat.bit true k := by simp [Nat.bit_true]
    rw [hd, h1, h2, Nat.land_bit]
    simp [Nat.bit_false, Nat.and_one_is_mod]

theorem lor_two_even (x : Nat) (h : x / 2 % 2 = 0) : x ||| 2 = x + 2 := by
  rw [lor_two_eq, lor_one_even _ (by omega)]
  omega

theorem lor_two_set (x : Nat) (h : x / 2 % 2 = 1) : x ||| 2 = x := by
  rw [lor_two_eq, lor_one_odd _ (by omega)]
  omega

theorem szOf_le (x : Nat) : szOf x ≤ x := by
  unfold szOf; omega

theorem szOf_szOf (x : Nat) : szOf (szOf x) = szOf x := by
  unfold szOf; omega

theorem szOf_lor_one (x : Nat) : szOf (x ||| 1) = szOf x := by
  rcases Nat.mod_two_eq_zero_or_one x with h | h
  · rw [lor_one_even x h]; unfold szOf; omega
  · rw [lor_one_odd x h]

theorem mod_two_lor_one (x : Nat) : (x ||| 1) % 2 = 1 := by
  rcases Nat.mod_two_eq_zero_or_one x with h | h
  · rw [lor_one_even x h]; omega
  · rw [lor_one_odd x h]; omega

theorem szOf_lor_two (x : Nat) : szOf (x ||| 2) = szOf x := by
  rcases Nat.mod_two_eq_zero_or_one (x / 2) with h | h
  · rw [lor_two_even x h]; unfold szOf; omega
  · rw [lor_two_set x h]

theorem mod_two_lor_two (x : Nat) : (x ||| 2) % 2 = x % 2 := by
  rcases Nat.mod_two_eq_zero_or_one (x / 2) with h | h
  · rw [lor_two_even x h]; omega
  · rw [lor_two_set x h]

/-- The header written for the allocated part of a split. -/
theorem split_header (rounded fss : Nat) (h : rounded % 8 = 0) :
    rounded ||| 1 ||| (fss &&& 2) = rounded + 1 + 2 * (fss / 2 % 2) := by
  rw [lor_one_even rounded (by omega), and_two_eq]
  rcases Nat.mod_two_eq_zero_or_one (fss / 2) with h2 | h2
  · rw [h2]; simp
  · rw [h2, lor_two_even (rounded + 1) (by omega)]

theorem szOf_split_header (rounded fss : Nat) (h : rounded % 8 = 0) :
    szOf (rounded ||| 1 ||| (fss &&& 2)) = rounded := by
  rw [split_header _ _ h]
  rcases Nat.mod_two_eq_zero_or_one (fss / 2) with hx | hx <;> rw [hx] <;> unfold szOf <;> omega

theorem mod_two_split_header (rounded fss : Nat) (h : rounded % 8 = 0) :
    (rounded ||| 1 ||| (fss &&& 2)) % 2 = 1 := by
  rw [split_header _ _ h]
  rcases Nat.mod_two_eq_zero_or_one (fss / 2) with hx | hx <;> rw [hx] <;> omega

/-! ### Reading and writing -/

theorem wr_same (m : Mem) (o : Int) (v : Nat) : wr m o v o = v := by
  simp [wr]

theorem wr_other (m : Mem) (o : Int) (v : Nat) (x : Int) (h : x ≠ o) : wr m o v x = m x := by
  simp [wr, h]

theorem wr_self (m : Mem) (o : Int) : wr m o (m o) = m := by
  funext x
  by_cases h : x = o <;> simp [wr, h]

theorem wr_self2 (m : Mem) (o : Int) (v : Nat) (h : m o = v) : wr m o v = m := by
  rw [← h]
  exact wr_self m o

/-! ### Chain lemmas -/

theorem chain_append {m : Mem} {o mid e : Int} {os1 os2 : List Int}
    (h1 : IsChain m o mid os1) (h2 : IsChain m mid e os2) :
    IsChain m o e (os1 ++ os2) := by
  induction os1 generalizing o with
  | nil => cases h1; simpa using h2
  | cons a rest ih =>
    obtain ⟨rfl, hm8, hge, hrest⟩ := h1
    exact ⟨rfl, hm8, hge, ih hrest⟩

theorem chain_sum {m : Mem} {o e : Int} {os : List Int} (h : IsChain m o e os) :
    o + ((os.map fun a => szOf (m a)).sum : Int) = e := by
  induction os generalizing o with
  | nil => simpa [IsChain] using h
  | cons a rest ih =>
    obtain ⟨rfl, _, _, hrest⟩ := h
    have := ih hrest
    simp only [List.map_cons, List.sum_cons]
    push_cast
    push_cast at this
    linarith

theorem chain_le {m : Mem} {o e : Int} {os : List Int} (h : IsChain m o e os) : o ≤ e := by
  induction os generalizing o with
  | nil => simp [IsChain] at h; omega
  | cons a rest ih =>
    obtain ⟨rfl, _, hge, hrest⟩ := h
    have := ih hrest
    have : (8 : Int) ≤ (szOf (m a) : Int) := by exact_mod_cast hge
    omega

theorem chain_mem_bounds {m : Mem} {o e : Int} {os : List Int} (h : IsChain m o e os) :
    ∀ a ∈ os, o ≤ a ∧ a + (szOf (m a) : Int) ≤ e := by
  induction os generalizing o with
  | nil => simp
  | cons b rest ih =>
    obtain ⟨rfl, _, hge, hrest⟩ := h
    intro a ha
    rcases List.mem_cons.1 ha with rfl | ha
    · exact ⟨le_refl _, chain_le hrest⟩
    · have h2 := ih hrest a ha
      have : (8 : Int) ≤ (szOf (m b) : Int) := by exact_mod_cast hge
      omega

theorem chain_mem_mod {m : Mem} {o e : Int} {os : List Int} (h : IsChain m o e os)
    (ho : o % 8 = 4) : ∀ a ∈ os, a % 8 = 4 := by
  induction os generalizing o with
  | nil => simp
  | cons b rest ih =>
    obtain ⟨rfl, hm8, _, hrest⟩ := h
    intro a ha
    rcases List.mem_cons.1 ha with rfl | ha
    · exact ho
    · refine ih hrest ?_ a ha
      have h8 : ((szOf (m b) : Int)) % 8 = 0 := by exact_mod_cast hm8
      omega

theorem chain_frame {m m2 : Mem} {o e : Int} {os : List Int}
    (h : IsChain m o e os) (hagree : ∀ a ∈ os, szOf (m2 a) = szOf (m a)) :
    IsChain m2 o e os := by
  induction os generalizing o with
  | nil => exact h
  | cons a rest ih =>
    obtain ⟨rfl, hm8, hge, hrest⟩ := h
    have ha := hagree a (by simp)
    refine ⟨rfl, by rw [ha]; exact hm8, by rw [ha]; exact hge, ?_⟩
    rw [ha]
    exact ih hrest (fun b hb => hagree b (by simp [hb]))

theorem chain_split {m : Mem} {o e : Int} {os : List Int} (h : IsChain m o e os)
    {a : Int} (ha : a ∈ os) :
    ∃ os1 os2, os = os1 ++ a :: os2 ∧ IsChain m o a os1 ∧ IsChain m a e (a :: os2) := by
  induction os generalizing o with
  | nil => simp at ha
  | cons b rest ih =>
    obtain ⟨rfl, hm8, hge, hrest⟩ := h
    rcases List.mem_cons.1 ha with rfl | ha
    · exact ⟨[], rest, rfl, rfl, ⟨rfl, hm8, hge, hrest⟩⟩
    · obtain ⟨os1, os2, heq, hc1, hc2⟩ := ih hrest ha
      exact ⟨b :: os1, os2, by simp [heq], ⟨rfl, hm8, hge, hc1⟩, hc2⟩

theorem chain_len {m : Mem} {o e : Int} {os : List Int} (h : IsChain m o e os) :
    8 * (os.length : Int) ≤ e - o := by
  induction os generalizing o with
  | nil =>
    have he : o = e := h
    simp only [List.length_nil, Nat.cast_zero, mul_zero]
    omega
  | cons a rest ih =>
    obtain ⟨rfl, _, hge, hrest⟩ := h
    have h2 := ih hrest
    have : (8 : Int) ≤ (szOf (m a) : Int) := by exact_mod_cast hge
    simp only [List.length_cons]
    push_cast
    push_cast at h2
    omega

theorem chain_unique {m : Mem} {o e : Int} {os os2 : List Int}
    (h : IsChain m o e os) (h2 : IsChain m o e os2) : os = os2 := by
  induction os generalizing o os2 with
  | nil =>
    have he : o = e := h
    cases os2 with
    | nil => rfl
    | cons b rest =>
      obtain ⟨rfl, _, hge, hrest⟩ := h2
      have h3 := chain_le hrest
      have h4 : (8 : Int) ≤ (szOf (m b) : Int) := by exact_mod_cast hge
      omega
  | cons a rest ih =>
    obtain ⟨rfl, _, hge, hrest⟩ := h
    cases os2 with
    | nil =>
      have he : a = e := h2
      have h3 := chain_le hrest
      have h4 : (8 : Int) ≤ (szOf (m a) : Int) := by exact_mod_cast hge
      omega
    | cons b rest2 =>
      obtain ⟨rfl, _, _, hrest2⟩ := h2
      rw [ih hrest hrest2]

/-! ### Best-fit search characterization -/

/-- `FreeFit m size o`: the block at `o` is free and large enough. -/
def FreeFit (m : Mem) (size : Nat) (o : Int) : Prop :=
  (m o) % 2 = 0 ∧ size ≤ szOf (m o)

instance (m : Mem) (size : Nat) (o : Int) : Decidable (FreeFit m size o) := by
  unfold FreeFit
  infer_instance

/-- One step of the best-fit accumulator, mirroring the loop body of
`best_block`. -/
def pickBest (m : Mem) (size : Nat) (fit : Option Int) (o : Int) : Option Int :=
  if (m o) % 2 = 0 ∧ size ≤ szOf (m o) then
    match fit with
    | none => some o
    | some f => if szOf (m o) < szOf (m f) then some o else fit
  else fit

/-- The best-fit scan, rephrased as a left fold over the block offsets:
this is the specification-level selection (smallest free block that
fits, first such block on ties). -/
def specBestAcc (m : Mem) (size : Nat) : Option Int → List Int → Option Int
  | fit, [] => fit
  | fit, o :: rest => specBestAcc m size (pickBest m size fit o) rest

theorem bestBlockGo_eq_spec {m : Mem} {S : Int} {size : Nat} :
    ∀ (os : List Int) (o : Int), IsChain m o S os → szOf (m S) = 0 ∨ m S = 1 →
    ∀ (fuel : Nat), os.length < fuel →
    ∀ (fit : Option Int), bestBlockGo m size fuel o fit = specBestAcc m size fit os := by
  intro os
  induction os with
  | nil =>
    intro o h hsen fuel hfuel fit
    have he : o = S := h
    subst he
    match fuel, hfuel with
    | fuel + 1, _ =>
      rcases hsen with hs | hs
      · by_cases h1 : m o = 1
        · simp [bestBlockGo, h1, specBestAcc]
        · simp [bestBlockGo, h1, hs, specBestAcc]
      · simp [bestBlockGo, hs, specBestAcc]
  | cons a rest ih =>
    intro o h hsen fuel hfuel fit
    obtain ⟨rfl, hm8, hge, hrest⟩ := h
    match fuel, hfuel with
    | fuel + 1, hfuel =>
      have hne1 : m a ≠ 1 := by
        have := szOf_le (m a)
        omega
      have hnz : szOf (m a) ≠ 0 := by omega
      have harm : (fuel + 1) - 1 = fuel := rfl
      simp only [bestBlockGo, hne1, if_neg (by exact hne1), hnz, if_neg hnz, specBestAcc]
      rw [ih _ hrest hsen fuel (by simpa using hfuel)]
      simp [pickBest]

/-- Characterization of the fold: it returns the first smallest free
fitting block (relative to the accumulator). -/
theorem specBestAcc_char (m : Mem) (size : Nat) :
    ∀ (os : List Int) (fit : Option Int),
    (specBestAcc m size fit os = none → fit = none ∧ ∀ o ∈ os, ¬FreeFit m size o) ∧
    (∀ f, specBestAcc m size fit os = some f →
      (fit = some f ∧ (∀ o ∈ os, FreeFit m size o → szOf (m f) ≤ szOf (m o)))
      ∨ (∃ os1 os2, os = os1 ++ f :: os2 ∧ FreeFit m size f ∧
          (∀ g, fit = some g → szOf (m f) < szOf (m g)) ∧
          (∀ o ∈ os1, FreeFit m size o → szOf (m f) < szOf (m o)) ∧
          (∀ o ∈ os2, FreeFit m size o → szOf (m f) ≤ szOf (m o)))) := by
  intro os
  induction os with
  | nil =>
    intro fit
    constructor
    · intro h
      exact ⟨h, by simp⟩
    · intro f h
      exact Or.inl ⟨h, by simp⟩
  | cons a rest ih =>
    intro fit
    constructor
    · intro h
      simp only [specBestAcc] at h
      obtain ⟨hf, hrest⟩ := (ih (pickBest m size fit a)).1 h
      unfold pickBest at hf
      by_cases hc : FreeFit m size a
      · exfalso
        have hc2 : (m a) % 2 = 0 ∧ size ≤ szOf (m a) := hc
        rw [if_pos hc2] at hf
        match fit, hf with
        | none, hf => simp at hf
        | some g, hf =>
          by_cases hlt : szOf (m a) < szOf (m g) <;> simp [hlt] at hf
      · have hc2 : ¬((m a) % 2 = 0 ∧ size ≤ szOf (m a)) := hc
        rw [if_neg hc2] at hf
        refine ⟨hf, ?_⟩
        intro o ho
        rcases List.mem_cons.1 ho with rfl | ho
        · exact hc
        · exact hrest o ho
    · intro f h
      simp only [specBestAcc] at h
      have hih := (ih (pickBest m size fit a)).2 f h
      by_cases hc : FreeFit m size a
      · have hc2 : (m a) % 2 = 0 ∧ size ≤ szOf (m a) := hc
        match fit with
        | none =>
          have hpick : pickBest m size none a = some a := by
            unfold pickBest
            rw [if_pos hc2]
          rw [hpick] at hih
          rcases hih with ⟨heq, hbnd⟩ | ⟨os1, os2, heq, hff, hacc, h1, h2⟩
          · cases heq
            exact Or.inr ⟨[], rest, rfl, hc, by simp, by simp, hbnd⟩
          · refine Or.inr ⟨a :: os1, os2, by simp [heq], hff, by simp, ?_, h2⟩
            intro o ho hfo
            rcases List.mem_cons.1 ho with rfl | ho
            · exact hacc o rfl
            · exact h1 o ho hfo
        | some g =>
          by_cases hlt : szOf (m a) < szOf (m g)
          · have hpick : pickBest m size (some g) a = some a := by
              unfold pickBest
              rw [if_pos hc2]
              simp [hlt]
            rw [hpick] at hih
            rcases hih with ⟨heq, hbnd⟩ | ⟨os1, os2, heq, hff, hacc, h1, h2⟩
            · cases heq
              refine Or.inr ⟨[], rest, rfl, hc, ?_, by simp, hbnd⟩
              intro g2 hg2
              cases hg2
              exact hlt
            · refine Or.inr ⟨a :: os1, os2, by simp [heq], hff, ?_, ?_, h2⟩
              · intro g2 hg2
                cases hg2
                exact lt_trans (hacc a rfl) hlt
              · intro o ho hfo
                rcases List.mem_cons.1 ho with rfl | ho
                · exact hacc o rfl
                · exact h1 o ho hfo
          · have hpick : pickBest m size (some g) a = some g := by
              unfold pickBest
              rw [if_pos hc2]
              simp [hlt]
            rw [hpick] at hih
            rcases hih with ⟨heq, hbnd⟩ | ⟨os1, os2, heq, hff, hacc, h1, h2⟩
            · cases heq
              refine Or.inl ⟨rfl, ?_⟩
              intro o ho hfo
              rcases List.mem_cons.1 ho with rfl | ho
              · omega
              · exact hbnd o ho hfo
            · refine Or.inr ⟨a :: os1, os2, by simp [heq], hff, hacc, ?_, h2⟩
              intro o ho hfo
              rcases List.mem_cons.1 ho with rfl | ho
              · have := hacc g rfl
                omega
              · exact h1 o ho hfo
      · have hc2 : ¬((m a) % 2 = 0 ∧ size ≤ szOf (m a)) := hc
        have hpick : pickBest m size fit a = fit := by
          unfold pickBest
          rw [if_neg hc2]
        rw [hpick] at hih
        rcases hih with ⟨heq, hbnd⟩ | ⟨os1, os2, heq, hff, hacc, h1, h2⟩
        · refine Or.inl ⟨heq, ?_⟩
          intro o ho hfo
          rcases List.mem_cons.1 ho with rfl | ho
          · exact absurd hfo hc
          · exact hbnd o ho hfo
        · refine Or.inr ⟨a :: os1, os2, by simp [heq], hff, hacc, ?_, h2⟩
          intro o ho hfo
          rcases List.mem_cons.1 ho with rfl | ho
          · exact absurd hfo hc
          · exact h1 o ho hfo

theorem chain_fuel {h : Heap} {os : List Int} (hch : IsChain h.mem 4 (endMark h) os) :
    os.length < h.N / 8 + 1 := by
  have h1 := chain_len hch
  unfold endMark at h1
  have h2 : 8 * os.length ≤ h.N := by exact_mod_cast (by omega : 8 * (os.length : Int) ≤ (h.N : Int))
  omega

/-- Under a well-formed chain, `best_block` computes exactly the
specification-level best-fit selection over the block list. -/
theorem best_block_eq_spec {h : Heap} {os : List Int}
    (hch : IsChain h.mem 4 (endMark h) os)
    (hsen : szOf (h.mem (endMark h)) = 0) (size : Nat) :
    best_block h size = specBestAcc h.mem size none os := by
  unfold best_block
  rw [bestBlockGo_eq_spec os 4 hch (Or.inl hsen) _ (chain_fuel hch)]
  cases hspec : specBestAcc h.mem size none os with
  | none => rfl
  | some f =>
    have hc := (specBestAcc_char h.mem size os none).2 f hspec
    rcases hc with ⟨heq, _⟩ | ⟨_, _, _, hff, _⟩
    · cases heq
    · simp [if_neg (not_lt.2 hff.2)]

theorem best_block_some {h : Heap} {os : List Int}
    (hch : IsChain h.mem 4 (endMark h) os)
    (hsen : szOf (h.mem (endMark h)) = 0) {size : Nat} {f : Int}
    (hf : best_block h size = some f) :
    f ∈ os ∧ FreeFit h.mem size f := by
  rw [best_block_eq_spec hch hsen] at hf
  have hc := (specBestAcc_char h.mem size os none).2 f hf
  rcases hc with ⟨heq, _⟩ | ⟨os1, os2, heq, hff, _, _, _⟩
  · cases heq
  · exact ⟨by simp [heq], hff⟩

theorem best_block_none {h : Heap} {os : List Int}
    (hch : IsChain h.mem 4 (endMark h) os)
    (hsen : szOf (h.mem (endMark h)) = 0) {size : Nat}
    (hf : best_block h size = none) :
    ∀ o ∈ os, ¬FreeFit h.mem size o := by
  rw [best_block_eq_spec hch hsen] at hf
  exact ((specBestAcc_char h.mem size os none).1 hf).2

/-! ### The heap invariant and reachable states -/

/-- The structural invariant maintained by every operation: the block
headers tile `[4, 4+N)` exactly, and the word at the end-mark offset has
a zero size part (it is `1` after init and may become `3` after an
allocation of the last block; either value stops every scan). -/
def Inv (h : Heap) : Prop :=
  8 ≤ h.N ∧ h.N % 8 = 0 ∧ szOf (h.mem (endMark h)) = 0 ∧
  ∃ os, IsChain h.mem 4 (endMark h) os

/-- `ptr` is a pointer that the `free` contract of the spec allows:
it is the payload of a currently allocated block. -/
def ValidFree (h : Heap) (ptr : Int) : Prop :=
  ∃ os, IsChain h.mem 4 (endMark h) os ∧ (ptr - 4) ∈ os ∧ (h.mem (ptr - 4)) % 2 = 1

/-- Heap states reachable by `init_heap` followed by any sequence of
`balloc` calls (any argument) and `bfree` calls on pointers satisfying
the `free` contract (previously allocated, not yet freed). -/
inductive Reach : Heap → Prop where
  | init : ∀ N : Nat, N % 8 = 0 → 8 ≤ N → Reach (mkHeap N)
  | alloc : ∀ h sz, Reach h → Reach (balloc h sz).2
  | free : ∀ h ptr, Reach h → ValidFree h ptr → Reach (bfree h ptr).2

theorem mkHeap_mem_start {N : Nat} (h8 : 8 ≤ N) : (mkHeap N).mem 4 = N + 2 := by
  have h1 : (4 : Int) ≠ 4 + (N : Int) - 4 := by omega
  have h2 : (4 : Int) ≠ 4 + (N : Int) := by omega
  simp only [mkHeap]
  rw [wr_other _ _ _ _ h1, wr_same, wr_same]

theorem mkHeap_mem_end {N : Nat} (h8 : 8 ≤ N) : (mkHeap N).mem (4 + (N : Int)) = 1 := by
  have h1 : (4 + (N : Int)) ≠ 4 + (N : Int) - 4 := by omega
  have h2 : (4 + (N : Int)) ≠ 4 := by omega
  simp only [mkHeap]
  rw [wr_other _ _ _ _ h1, wr_other _ _ _ _ h2, wr_other _ _ _ _ h2, wr_same]

theorem mkHeap_mem_footer {N : Nat} (_h8 : 8 ≤ N) :
    (mkHeap N).mem (4 + (N : Int) - 4) = N := by
  simp only [mkHeap]
  rw [wr_same]

theorem inv_init (N : Nat) (hm : N % 8 = 0) (h8 : 8 ≤ N) : Inv (mkHeap N) := by
  refine ⟨h8, hm, ?_, [4], ?_⟩
  · show szOf ((mkHeap N).mem (endMark (mkHeap N))) = 0
    have : endMark (mkHeap N) = 4 + (N : Int) := rfl
    rw [this, mkHeap_mem_end h8]
    decide
  · have hs : (mkHeap N).mem 4 = N + 2 := mkHeap_mem_start h8
    have hsz : szOf ((mkHeap N).mem 4) = N := by
      rw [hs]
      unfold szOf
      omega
    refine ⟨rfl, by rw [hsz]; exact hm, by rw [hsz]; exact h8, ?_⟩
    show IsChain (mkHeap N).mem (4 + (szOf ((mkHeap N).mem 4) : Int)) (endMark (mkHeap N)) []
    rw [hsz]
    rfl

/-! ### Description of `balloc`'s effect -/

theorem roundedSize_mod (sz : Int) : roundedSize sz % 8 = 0 := by
  unfold roundedSize
  exact Nat.mul_mod_left _ 8

theorem roundedSize_ge {sz : Int} (h : 1 ≤ sz) : 8 ≤ roundedSize sz := by
  unfold roundedSize headerSize
  have : 1 ≤ sz.toNat := by omega
  omega

theorem roundedSize_bounds (sz : Int) :
    sz.toNat + headerSize ≤ roundedSize sz ∧ roundedSize sz < sz.toNat + headerSize + 8 := by
  unfold roundedSize
  omega

theorem balloc_fail_size {h : Heap} {sz : Int} (h1 : sz < 1) :
    balloc h sz = (Except.error AllocErr.invalidSize, h) := by
  simp [balloc, h1]

theorem balloc_fail_oom {h : Heap} {sz : Int} (h1 : ¬ sz < 1)
    (hbb : best_block h (roundedSize sz) = none) :
    balloc h sz = (Except.error AllocErr.outOfMemory, h) := by
  unfold balloc
  rw [if_neg h1]
  simp only [hbb]

/-- The effect of a `balloc` that splits the chosen block, described
pointwise.  (The hypotheses on `fit` hold for the block `best_block`
returns on any well-formed heap.) -/
theorem balloc_split_mem {h : Heap} {sz : Int} {fit : Int} (h1 : ¬ sz < 1)
    (hbb : best_block h (roundedSize sz) = some fit)
    (hfit8 : 8 ≤ szOf (h.mem fit))
    (hsp : headerSize + 8 ≤ szOf (h.mem fit) - roundedSize sz) :
    (balloc h sz).1 = Except.ok (fit + 4) ∧ (balloc h sz).2.N = h.N ∧
    (balloc h sz).2.mem fit = (roundedSize sz ||| 1 ||| (h.mem fit &&& 2)) ∧
    (balloc h sz).2.mem (fit + (roundedSize sz : Int)) =
      ((szOf (h.mem fit) - roundedSize sz) ||| 2) ∧
    (balloc h sz).2.mem (fit + (szOf (h.mem fit) : Int) - 4) =
      (szOf (h.mem fit) - roundedSize sz) ∧
    ∀ q : Int, q ≠ fit → q ≠ fit + (roundedSize sz : Int) →
      q ≠ fit + (szOf (h.mem fit) : Int) - 4 →
      (balloc h sz).2.mem q = h.mem q := by
  have hrle : roundedSize sz ≤ szOf (h.mem fit) := by
    unfold headerSize at hsp
    omega
  have hd : best_block h (roundedSize sz) = some fit ∧
      headerSize + 8 ≤ szOf (h.mem fit) - roundedSize sz := ⟨hbb, hsp⟩
  have hr8 : 8 ≤ roundedSize sz := roundedSize_ge (by omega)
  have hhdr : szOf (roundedSize sz ||| 1 ||| (h.mem fit &&& 2)) = roundedSize sz := by
    rw [split_header _ _ (roundedSize_mod sz)]
    have h4 : roundedSize sz % 8 = 0 := roundedSize_mod sz
    have hx : h.mem fit / 2 % 2 = 0 ∨ h.mem fit / 2 % 2 = 1 := Nat.mod_two_eq_zero_or_one _
    unfold szOf
    rcases hx with hx | hx <;> rw [hx] <;> omega
  have hrem : (4 : Int) ≤ (szOf (h.mem fit) : Int) - (roundedSize sz : Int) - 4 := by
    unfold headerSize at hsp
    have : roundedSize sz + 12 ≤ szOf (h.mem fit) := by omega
    omega
  have hfr : fit + (roundedSize sz : Int) ≠ fit := by
    have : (8 : Int) ≤ (roundedSize sz : Int) := by exact_mod_cast hr8
    omega
  have hff : fit + (szOf (h.mem fit) : Int) - 4 ≠ fit := by
    have : (8 : Int) ≤ (szOf (h.mem fit) : Int) := by exact_mod_cast hfit8
    omega
  have hfrf : fit + (szOf (h.mem fit) : Int) - 4 ≠ fit + (roundedSize sz : Int) := by
    omega
  have heq : balloc h sz =
      (Except.ok (fit + 4),
        { mem := wr (wr (wr (wr h.mem (fit + (roundedSize sz : Int))
            (szOf (h.mem fit) - roundedSize sz))
            (fit + (roundedSize sz : Int) + ((szOf (h.mem fit) - roundedSize sz : Nat) : Int)
              - (headerSize : Int)) (szOf (h.mem fit) - roundedSize sz))
            fit (roundedSize sz ||| 1 ||| (h.mem fit &&& 2)))
            (fit + (roundedSize sz : Int))
            ((wr (wr (wr h.mem (fit + (roundedSize sz : Int))
              (szOf (h.mem fit) - roundedSize sz))
              (fit + (roundedSize sz : Int) + ((szOf (h.mem fit) - roundedSize sz : Nat) : Int)
                - (headerSize : Int)) (szOf (h.mem fit) - roundedSize sz))
              fit (roundedSize sz ||| 1 ||| (h.mem fit &&& 2)))
              (fit + (roundedSize sz : Int)) ||| 2),
          N := h.N }) := by
    unfold balloc
    rw [if_neg h1]
    simp only [hbb, if_pos hsp]
    rw [wr_same, hhdr]
  have hpos : fit + (roundedSize sz : Int) + ((szOf (h.mem fit) - roundedSize sz : Nat) : Int)
      - (headerSize : Int) = fit + (szOf (h.mem fit) : Int) - 4 := by
    unfold headerSize
    push_cast [Nat.cast_sub hrle]
    ring
  rw [hpos] at heq
  rw [heq]
  refine ⟨rfl, rfl, ?_, ?_, ?_, ?_⟩
  · show wr _ _ _ fit = _
    rw [wr_other _ _ _ _ (fun hc => hfr hc.symm), wr_same]
  · show wr _ _ _ _ = _
    rw [wr_same]
    rw [wr_other _ _ _ _ (fun hc => hfr hc), wr_other _ _ _ _ (fun hc => hfrf hc.symm), wr_same]
  · show wr _ _ _ _ = _
    rw [wr_other _ _ _ _ hfrf, wr_other _ _ _ _ hff, wr_same]
  · intro q hq1 hq2 hq3
    show wr _ _ _ q = _
    rw [wr_other _ _ _ _ hq2, wr_other _ _ _ _ hq1, wr_other _ _ _ _ hq3,
      wr_other _ _ _ _ hq2]

/-- The effect of a `balloc` that allocates the chosen block exactly. -/
theorem balloc_exact_mem {h : Heap} {sz : Int} {fit : Int} (h1 : ¬ sz < 1)
    (hbb : best_block h (roundedSize sz) = some fit)
    (hfit8 : 8 ≤ szOf (h.mem fit))
    (hsp : ¬ headerSize + 8 ≤ szOf (h.mem fit) - roundedSize sz) :
    (balloc h sz).1 = Except.ok (fit + 4) ∧ (balloc h sz).2.N = h.N ∧
    (balloc h sz).2.mem fit = (h.mem fit ||| 1) ∧
    (balloc h sz).2.mem (fit + (szOf (h.mem fit) : Int)) =
      (h.mem (fit + (szOf (h.mem fit) : Int)) ||| 2) ∧
    ∀ q : Int, q ≠ fit → q ≠ fit + (szOf (h.mem fit) : Int) →
      (balloc h sz).2.mem q = h.mem q := by
  have hnf : fit + (szOf (h.mem fit) : Int) ≠ fit := by
    have : (8 : Int) ≤ (szOf (h.mem fit) : Int) := by exact_mod_cast hfit8
    omega
  have heq : balloc h sz =
      (Except.ok (fit + 4),
        { mem := wr (wr h.mem fit (h.mem fit ||| 1)) (fit + (szOf (h.mem fit) : Int))
            ((wr h.mem fit (h.mem fit ||| 1)) (fit + (szOf (h.mem fit) : Int)) ||| 2),
          N := h.N }) := by
    unfold balloc
    rw [if_neg h1]
    simp only [hbb, if_neg hsp]
    rw [wr_same, szOf_lor_one]
  rw [heq]
  refine ⟨rfl, rfl, ?_, ?_, ?_⟩
  · show wr _ _ _ fit = _
    rw [wr_other _ _ _ _ (fun hc => hnf hc.symm), wr_same]
  · show wr _ _ _ _ = _
    rw [wr_same, wr_other _ _ _ _ hnf]
  · intro q hq1 hq2
    show wr _ _ _ q = _
    rw [wr_other _ _ _ _ hq2, wr_other _ _ _ _ hq1]

theorem endMark_balloc (h : Heap) (sz : Int) (hN : (balloc h sz).2.N = h.N) :
    endMark (balloc h sz).2 = endMark h := by
  unfold endMark
  rw [hN]

theorem inv_balloc (h : Heap) (sz : Int) (hinv : Inv h) : Inv (balloc h sz).2 := by
  obtain ⟨hN8, hNm, hsen, os, hch⟩ := hinv
  by_cases h1 : sz < 1
  · rw [balloc_fail_size h1]
    exact ⟨hN8, hNm, hsen, os, hch⟩
  cases hbb : best_block h (roundedSize sz) with
  | none =>
    rw [balloc_fail_oom h1 hbb]
    exact ⟨hN8, hNm, hsen, os, hch⟩
  | some fit =>
    obtain ⟨hmem, hfree, hrle⟩ :=
      (fun p => ⟨p.1, p.2.1, p.2.2⟩ :
        fit ∈ os ∧ FreeFit h.mem (roundedSize sz) fit →
        fit ∈ os ∧ (h.mem fit) % 2 = 0 ∧ roundedSize sz ≤ szOf (h.mem fit))
      (best_block_some hch hsen hbb)
    obtain ⟨os1, os2, hoseq, hc1, hc2⟩ := chain_split hch hmem
    obtain ⟨-, hm8, hge8, hrest⟩ := hc2
    have hbnd := chain_mem_bounds hch fit hmem
    have hfitS : fit + (szOf (h.mem fit) : Int) ≤ endMark h := hbnd.2
    have hfit4 : (4 : Int) ≤ fit := hbnd.1
    have hsz8I : (8 : Int) ≤ (szOf (h.mem fit) : Int) := by exact_mod_cast hge8
    by_cases hsp : headerSize + 8 ≤ szOf (h.mem fit) - roundedSize sz
    · -- split case
      obtain ⟨hres, hN, hmf, hmr, hmfoot, hframe⟩ := balloc_split_mem h1 hbb hge8 hsp
      have hEM := endMark_balloc h sz hN
      have hrem12 : 12 ≤ szOf (h.mem fit) - roundedSize sz := hsp
      have hr8 : 8 ≤ roundedSize sz := roundedSize_ge (by omega)
      have hrm : roundedSize sz % 8 = 0 := roundedSize_mod sz
      have hr8I : (8 : Int) ≤ ((roundedSize sz : Nat) : Int) := by exact_mod_cast hr8
      have hszsum : ((roundedSize sz : Nat) : Int) + ((szOf (h.mem fit) - roundedSize sz : Nat) : Int)
          = (szOf (h.mem fit) : Int) := by
        push_cast [Nat.cast_sub hrle]
        ring
      have hremI : (12 : Int) ≤ ((szOf (h.mem fit) - roundedSize sz : Nat) : Int) := by
        exact_mod_cast hrem12
      refine ⟨by rw [hN]; exact hN8, by rw [hN]; exact hNm, ?_, ?_⟩
      · rw [hEM]
        have hq := hframe (endMark h) (by omega) (by omega) (by omega)
        rw [hq]
        exact hsen
      · refine ⟨os1 ++ fit :: (fit + (roundedSize sz : Int)) :: os2, ?_⟩
        rw [hEM]
        have hchm1 : IsChain (balloc h sz).2.mem 4 fit os1 := by
          refine chain_frame hc1 ?_
          intro a ha
          have hb := chain_mem_bounds hc1 a ha
          have ha8 : (8 : Int) ≤ (szOf (h.mem a) : Int) := by
            obtain ⟨-, -, hge, -⟩ :=
              (chain_split hc1 ha).choose_spec.choose_spec.2.2
            exact_mod_cast hge
          have := hframe a (by omega) (by omega) (by omega)
          rw [this]
        have hszf : szOf ((balloc h sz).2.mem fit) = roundedSize sz := by
          rw [hmf]
          exact szOf_split_header _ _ (roundedSize_mod sz)
        have hszr : szOf ((balloc h sz).2.mem (fit + (roundedSize sz : Int)))
            = szOf (h.mem fit) - roundedSize sz := by
          rw [hmr, szOf_lor_two]
          have : (szOf (h.mem fit) - roundedSize sz) % 8 = 0 := by omega
          unfold szOf
          omega
        have hchm2 : IsChain (balloc h sz).2.mem
            (fit + (szOf (h.mem fit) : Int)) (endMark h) os2 := by
          refine chain_frame hrest ?_
          intro a ha
          have hb := chain_mem_bounds hrest a ha
          have := hframe a (by omega) (by omega) (by omega)
          rw [this]
        refine chain_append hchm1 ?_
        refine ⟨rfl, ?_, ?_, ?_⟩
        · rw [hszf]; exact roundedSize_mod sz
        · rw [hszf]; exact hr8
        · rw [hszf]
          refine ⟨rfl, ?_, ?_, ?_⟩
          · rw [hszr]; omega
          · rw [hszr]; omega
          · rw [hszr]
            have harith : fit + ((roundedSize sz : Nat) : Int)
                + ((szOf (h.mem fit) - roundedSize sz : Nat) : Int)
                = fit + (szOf (h.mem fit) : Int) := by omega
            rw [harith]
            exact hchm2
    · -- exact-fit case
      obtain ⟨hres, hN, hmf, hmn, hframe⟩ := balloc_exact_mem h1 hbb hge8 hsp
      have hEM := endMark_balloc h sz hN
      refine ⟨by rw [hN]; exact hN8, by rw [hN]; exact hNm, ?_, ?_⟩
      · rw [hEM]
        by_cases hSn : endMark h = fit + (szOf (h.mem fit) : Int)
        · rw [hSn, hmn, szOf_lor_two, ← hSn]
          exact hsen
        · have hq := hframe (endMark h) (by omega) hSn
          rw [hq]
          exact hsen
      · refine ⟨os, ?_⟩
        rw [hEM]
        refine chain_frame hch ?_
        intro a ha
        by_cases haf : a = fit
        · subst haf
          rw [hmf, szOf_lor_one]
        · by_cases han : a = fit + (szOf (h.mem fit) : Int)
          · rw [han, hmn, szOf_lor_two, ← han]
          · rw [hframe a haf han]

/-! ### `coalesce` preserves the chain structure -/

theorem ne_of_mod8 {a q : Int} (ha : a % 8 = 4) (hq : q % 8 = 0) : a ≠ q := by
  intro h
  subst h
  omega

/-- Right-merge when the "next header" is the end-mark word: the write
back is a no-op on the headers (it only rewrites the last block's
footer position). -/
theorem coalesceRight_last {m' : Mem} {S blk : Int} {bs : Nat} {os' : List Int}
    (hch : IsChain m' 4 S os')
    (hsen : szOf (m' S) = 0)
    (hS8 : S % 8 = 4)
    (hval : m' blk = bs)
    (htS : blk + (bs : Int) = S) :
    (∃ os2, IsChain (coalesceRight m' blk bs) 4 S os2) ∧
      szOf ((coalesceRight m' blk bs) S) = 0 := by
  have hmods : ∀ a ∈ os', a % 8 = 4 := chain_mem_mod hch (by decide)
  unfold coalesceRight
  by_cases hcond : m' (blk + (bs : Int)) ≠ 1 ∧ (m' (blk + (bs : Int))) % 2 = 0
  · rw [if_pos hcond]
    have hns : szOf (m' (blk + (bs : Int))) = 0 := by rw [htS]; exact hsen
    rw [hns]
    simp only [Nat.add_zero, Nat.cast_zero, add_zero]
    have hwr : wr m' blk bs = m' := by
      rw [← hval]
      exact wr_self m' blk
    rw [hwr]
    have hpos : (blk + (bs : Int) - 4) % 8 = 0 := by omega
    constructor
    · refine ⟨os', chain_frame hch ?_⟩
      intro a ha
      rw [wr_other _ _ _ _ (ne_of_mod8 (hmods a ha) hpos)]
    · rw [wr_other _ _ _ _ (ne_of_mod8 hS8 hpos), hsen]
  · rw [if_neg hcond]
    exact ⟨⟨os', hch⟩, hsen⟩

/-- The right-merge step of `coalesce` preserves the chain structure,
whether the block/size pair it gets is a real block of the chain (the
normal case, including a left merge that absorbed real blocks) or a
rogue pair produced by a junk "footer" value (then its writes never
touch a header). -/
theorem coalesceRight_inv {m' : Mem} {S blk : Int} {bs : Nat} {os' : List Int}
    (hch : IsChain m' 4 S os')
    (hsen : szOf (m' S) = 0)
    (hS8 : S % 8 = 4)
    (hval : m' blk = bs)
    (ht8 : (blk + (bs : Int)) % 8 = 4)
    (hts : ∃ osB, IsChain m' (blk + (bs : Int)) S osB)
    (hcase : (blk ∈ os' ∧ bs % 8 = 0 ∧ 8 ≤ bs ∧ szOf (m' blk) = bs) ∨ blk ∉ os') :
    (∃ os2, IsChain (coalesceRight m' blk bs) 4 S os2) ∧
      szOf ((coalesceRight m' blk bs) S) = 0 := by
  have hmods : ∀ a ∈ os', a % 8 = 4 := chain_mem_mod hch (by decide)
  obtain ⟨osB, hcB⟩ := hts
  cases osB with
  | nil => exact coalesceRight_last hch hsen hS8 hval hcB
  | cons n osB2 =>
    obtain ⟨hneq, hn8, hnge, hcB2⟩ := hcB
    unfold coalesceRight
    by_cases hcond : m' (blk + (bs : Int)) ≠ 1 ∧ (m' (blk + (bs : Int))) % 2 = 0
    · rw [if_pos hcond]
      have hnsle : blk + (bs : Int) + (szOf (m' (blk + (bs : Int))) : Int) ≤ S := by
        have := chain_le hcB2
        omega
      have hnsI : (8 : Int) ≤ (szOf (m' (blk + (bs : Int))) : Int) := by
        exact_mod_cast hnge
      have hfpos : (blk + (bs : Int) + (szOf (m' (blk + (bs : Int))) : Int) - 4) % 8 = 0 := by
        have h8 : ((szOf (m' (blk + (bs : Int))) : Nat) : Int) % 8 = 0 := by
          exact_mod_cast hn8
        omega
      constructor
      · rcases hcase with ⟨hblkmem, hbs8, hbsge, hszblk⟩ | hnb
        · -- real block: absorb the next block into it
          obtain ⟨osA, osB', hoseq, hcA, hcblk⟩ := chain_split hch hblkmem
          obtain ⟨-, -, -, htail⟩ := hcblk
          rw [hszblk] at htail
          have hosBeq : osB' = n :: osB2 := chain_unique htail ⟨hneq, hn8, hnge, hcB2⟩
          subst hosBeq
          have hblk8 : blk % 8 = 4 := hmods blk hblkmem
          have hbsI : (8 : Int) ≤ (bs : Int) := by exact_mod_cast hbsge
          refine ⟨osA ++ blk :: osB2, ?_⟩
          have hframeA : IsChain (wr (wr m' blk (bs + szOf (m' (blk + (bs : Int)))))
              (blk + (bs : Int) + (szOf (m' (blk + (bs : Int))) : Int) - 4)
              (bs + szOf (m' (blk + (bs : Int))))) 4 blk osA := by
            refine chain_frame hcA ?_
            intro a ha
            have hb := chain_mem_bounds hcA a ha
            have ha8 : (8 : Int) ≤ (szOf (m' a) : Int) := by
              obtain ⟨-, -, hge, -⟩ :=
                (chain_split hcA ha).choose_spec.choose_spec.2.2
              exact_mod_cast hge
            rw [wr_other _ _ _ _ (by omega), wr_other _ _ _ _ (by omega)]
          refine chain_append hframeA ?_
          have hMblk : (wr (wr m' blk (bs + szOf (m' (blk + (bs : Int)))))
              (blk + (bs : Int) + (szOf (m' (blk + (bs : Int))) : Int) - 4)
              (bs + szOf (m' (blk + (bs : Int))))) blk
              = bs + szOf (m' (blk + (bs : Int))) := by
            rw [wr_other _ _ _ _ (by omega), wr_same]
          have hsz : szOf ((wr (wr m' blk (bs + szOf (m' (blk + (bs : Int)))))
              (blk + (bs : Int) + (szOf (m' (blk + (bs : Int))) : Int) - 4)
              (bs + szOf (m' (blk + (bs : Int))))) blk)
              = bs + szOf (m' (blk + (bs : Int))) := by
            rw [hMblk]
            unfold szOf
            omega
          refine ⟨rfl, ?_, ?_, ?_⟩
          · rw [hsz]; omega
          · rw [hsz]; omega
          · rw [hsz]
            have harith : blk + ((bs + szOf (m' (blk + (bs : Int))) : Nat) : Int)
                = blk + (bs : Int) + (szOf (m' (blk + (bs : Int))) : Int) := by
              push_cast
              ring
            rw [harith]
            refine chain_frame hcB2 ?_
            intro a ha
            have hb := chain_mem_bounds hcB2 a ha
            rw [wr_other _ _ _ _ (by omega), wr_other _ _ _ _ (by omega)]
        · -- rogue pair: the two writes touch no header of the chain
          refine ⟨os', chain_frame hch ?_⟩
          intro a ha
          have hane : a ≠ blk := fun hc => hnb (hc ▸ ha)
          rw [wr_other _ _ _ _ (ne_of_mod8 (hmods a ha) hfpos),
            wr_other _ _ _ _ hane]
      · have hSne1 : S ≠ blk + (bs : Int) + (szOf (m' (blk + (bs : Int))) : Int) - 4 :=
          ne_of_mod8 hS8 hfpos
        have hSne2 : S ≠ blk := by
          rcases hcase with ⟨hblkmem, -, -, -⟩ | hnb
          · have hb := chain_mem_bounds hch blk hblkmem
            have : (8 : Int) ≤ (szOf (m' blk) : Int) := by
              obtain ⟨-, -, hge, -⟩ :=
                (chain_split hch hblkmem).choose_spec.choose_spec.2.2
              exact_mod_cast hge
            omega
          · have h1 := chain_le hcB2
            intro hc
            subst hc
            omega
        rw [wr_other _ _ _ _ hSne1, wr_other _ _ _ _ hSne2, hsen]
    · rw [if_neg hcond]
      exact ⟨⟨os', hch⟩, hsen⟩

/-- `coalesce`, unfolded to its two branches. -/
theorem coalesce_eq (m : Mem) (block : Int) :
    coalesce m block =
      (if 4 ≤ block - 4 ∧ (m (block - 4 - (m (block - 4) : Int) + 4)) % 2 = 0 then
        coalesceRight
          (wr (wr m (block - 4 - (m (block - 4) : Int) + 4) (szOf (m block) + m (block - 4)))
              (block + (szOf (m block) : Int) - 4) (szOf (m block) + m (block - 4)))
          (block - 4 - (m (block - 4) : Int) + 4)
          (szOf (m block) + m (block - 4))
      else coalesceRight m block (szOf (m block))) := by
  unfold coalesce
  by_cases hg : 4 ≤ block - 4 ∧ (m (block - 4 - (m (block - 4) : Int) + 4)) % 2 = 0
  · simp only [if_pos hg]
  · simp only [if_neg hg]

/-- The success path of `bfree`. -/
theorem bfree_success_eq {h : Heap} {ptr : Int} (h0 : ptr ≠ 0) (h8 : ptr % 8 = 0)
    (hodd : (h.mem (ptr - 4)) % 2 = 1) (hge : 4 ≤ ptr - 4) (hne1 : h.mem (ptr - 4) ≠ 1) :
    bfree h ptr =
      (none,
        { mem := coalesce
            (wr (wr h.mem (ptr - 4) (szOf (h.mem (ptr - 4))))
              (ptr - 4 + (szOf (h.mem (ptr - 4)) : Int) - 4) (szOf (h.mem (ptr - 4))))
            (ptr - 4),
          N := h.N }) := by
  unfold bfree
  rw [if_neg h0, if_neg (by omega : ¬ ptr % 8 ≠ 0), if_neg (by omega : ¬ (h.mem (ptr - 4)) % 2 = 0),
    if_neg (by push_neg; exact ⟨by omega, hne1⟩)]

theorem inv_bfree (h : Heap) (ptr : Int) (hinv : Inv h) (hvf : ValidFree h ptr) :
    Inv (bfree h ptr).2 := by
  obtain ⟨hN8, hNm, hsen, os0, hch0⟩ := hinv
  obtain ⟨os, hch, hbmem, hodd⟩ := hvf
  have hNmI : (h.N : Int) % 8 = 0 := by exact_mod_cast hNm
  have hN8I : (8 : Int) ≤ (h.N : Int) := by exact_mod_cast hN8
  have hSval : endMark h = 4 + (h.N : Int) := rfl
  have hS8 : endMark h % 8 = 4 := by
    rw [hSval]
    omega
  have hmods : ∀ a ∈ os, a % 8 = 4 := chain_mem_mod hch (by decide)
  have hb8 : (ptr - 4) % 8 = 4 := hmods _ hbmem
  obtain ⟨p1, p2, hoseq, hc1, hcb⟩ := chain_split hch hbmem
  obtain ⟨-, hbm8, hbge, hrest⟩ := hcb
  have hbnd := chain_mem_bounds hch _ hbmem
  have hsI : (8 : Int) ≤ (szOf (h.mem (ptr - 4)) : Int) := by exact_mod_cast hbge
  have hsmI : (szOf (h.mem (ptr - 4)) : Int) % 8 = 0 := by exact_mod_cast hbm8
  have hne1 : h.mem (ptr - 4) ≠ 1 := by
    have := szOf_le (h.mem (ptr - 4))
    omega
  rw [bfree_success_eq (by omega) (by omega) hodd (by omega) hne1]
  set b : Int := ptr - 4 with hbdef
  set s : Nat := szOf (h.mem b) with hsdef
  set m2 : Mem := wr (wr h.mem b s) (b + (s : Int) - 4) s with hm2def
  have hfoot8 : (b + (s : Int) - 4) % 8 = 0 := by omega
  have hfootne : b + (s : Int) - 4 ≠ b := by omega
  have hm2b : m2 b = s := by
    rw [hm2def, wr_other _ _ _ _ hfootne.symm, wr_same]
  have hm2bsz : szOf (m2 b) = s := by
    rw [hm2b, hsdef, szOf_szOf]
  have hSb : b < endMark h := by omega
  have hchm2 : IsChain m2 4 (endMark h) os := by
    refine chain_frame hch ?_
    intro a ha
    by_cases hab : a = b
    · subst hab
      rw [hm2bsz]
    · rw [hm2def, wr_other _ _ _ _ (ne_of_mod8 (hmods a ha) hfoot8),
        wr_other _ _ _ _ hab]
  have hsen2 : szOf (m2 (endMark h)) = 0 := by
    rw [hm2def, wr_other _ _ _ _ (ne_of_mod8 hS8 hfoot8),
      wr_other _ _ _ _ (by omega : endMark h ≠ b)]
    exact hsen
  have hts2 : IsChain m2 (b + (s : Int)) (endMark h) p2 := by
    refine chain_frame hrest ?_
    intro a ha
    have hbd := chain_mem_bounds hrest a ha
    rw [hm2def, wr_other _ _ _ _ (by omega), wr_other _ _ _ _ (by omega)]
  have hmain : (∃ os2, IsChain (coalesceRight m2 b s) 4 (endMark h) os2) ∧
      szOf ((coalesceRight m2 b s) (endMark h)) = 0 := by
    refine coalesceRight_inv hchm2 hsen2 hS8 hm2b (by omega) ⟨p2, hts2⟩ ?_
    exact Or.inl ⟨hbmem, hbm8, hbge, hm2bsz⟩
  rw [coalesce_eq]
  have hv1 : m2 (b - 4) = h.mem (b - 4) := by
    rw [hm2def, wr_other _ _ _ _ (by omega), wr_other _ _ _ _ (by omega)]
  rw [hv1, hm2bsz]
  set v : Nat := h.mem (b - 4) with hvdef
  have hβ : b - 4 - (v : Int) + 4 = b - (v : Int) := by ring
  rw [hβ]
  by_cases hg : 4 ≤ b - 4 ∧ (m2 (b - (v : Int))) % 2 = 0
  · rw [if_pos hg]
    by_cases hv0 : v = 0
    · rw [hv0]
      simp only [Nat.cast_zero, sub_zero, Nat.add_zero]
      rw [wr_self2 _ _ _ hm2b]
      have hm2foot : m2 (b + (s : Int) - 4) = s := by
        rw [hm2def, wr_same]
      rw [wr_self2 _ _ _ hm2foot]
      exact ⟨hN8, hNm, hmain.2, hmain.1⟩
    · -- a nonzero word sits just before the block; the code treats it
      -- as a footer and merges with the "block" it designates
      have hvpos : 1 ≤ (v : Int) := by
        have : 0 < v := Nat.pos_of_ne_zero hv0
        exact_mod_cast this
      set m3 : Mem := wr (wr m2 (b - (v : Int)) (s + v)) (b + (s : Int) - 4) (s + v)
        with hm3def
      have hβne : b - (v : Int) ≠ b + (s : Int) - 4 := by omega
      have hm3β : m3 (b - (v : Int)) = s + v := by
        rw [hm3def, wr_other _ _ _ _ hβne, wr_same]
      have hm3βsz : szOf (m3 (b - (v : Int))) = szOf (s + v) := by rw [hm3β]
      have hsen3 : szOf (m3 (endMark h)) = 0 := by
        rw [hm3def, wr_other _ _ _ _ (ne_of_mod8 hS8 hfoot8),
          wr_other _ _ _ _ (by omega : endMark h ≠ b - (v : Int))]
        exact hsen2
      have hts3 : IsChain m3 (b + (s : Int)) (endMark h) p2 := by
        refine chain_frame hts2 ?_
        intro a ha
        have hbd := chain_mem_bounds hts2 a ha
        rw [hm3def, wr_other _ _ _ _ (by omega), wr_other _ _ _ _ (by omega)]
      have hteq : b - (v : Int) + ((s + v : Nat) : Int) = b + (s : Int) := by
        push_cast
        ring
      by_cases hβos : b - (v : Int) ∈ os
      · -- the word happens to point at a real block of the chain
        have hβ8 : (b - (v : Int)) % 8 = 4 := hmods _ hβos
        have hv8 : (v : Int) % 8 = 0 := by omega
        have hβp1 : b - (v : Int) ∈ p1 := by
          rw [hoseq] at hβos
          rcases List.mem_append.1 hβos with hx | hx
          · exact hx
          · rcases List.mem_cons.1 hx with hx2 | hx2
            · omega
            · have := chain_mem_bounds hrest _ hx2
              omega
        obtain ⟨q1, q2, hp1eq, hq1, hqb⟩ := chain_split hc1 hβp1
        obtain ⟨-, hβm8, hβge, hq2c⟩ := hqb
        have hsv8 : (s + v) % 8 = 0 := by
          have : v % 8 = 0 := by exact_mod_cast hv8
          omega
        have hsvge : 8 ≤ s + v := by omega
        have hszsv : szOf (s + v) = s + v := by
          unfold szOf
          omega
        have hchain3 : IsChain m3 4 (endMark h) (q1 ++ (b - (v : Int)) :: p2) := by
          refine @chain_append m3 4 (b - (v : Int)) (endMark h) q1 ((b - (v : Int)) :: p2) ?_ ?_
          · refine chain_frame hq1 ?_
            intro a ha
            have hbd := chain_mem_bounds hq1 a ha
            have ha8 : (8 : Int) ≤ (szOf (h.mem a) : Int) := by
              obtain ⟨-, -, hge, -⟩ :=
                (chain_split hq1 ha).choose_spec.choose_spec.2.2
              exact_mod_cast hge
            rw [hm3def, wr_other _ _ _ _ (by omega), wr_other _ _ _ _ (by omega),
              hm2def, wr_other _ _ _ _ (by omega), wr_other _ _ _ _ (by omega)]
          · refine ⟨rfl, ?_, ?_, ?_⟩
            · rw [hm3βsz, hszsv]
              exact hsv8
            · rw [hm3βsz, hszsv]
              exact hsvge
            · rw [hm3βsz, hszsv, hteq]
              exact hts3
        refine ⟨hN8, hNm, ?_, ?_⟩ <;>
          [skip; skip]
        · exact (coalesceRight_inv hchain3 hsen3 hS8 hm3β
            (by rw [hteq]; omega) ⟨p2, by rw [hteq]; exact hts3⟩
            (Or.inl ⟨by simp, hsv8, hsvge, by rw [hm3βsz, hszsv]⟩)).2
        · exact (coalesceRight_inv hchain3 hsen3 hS8 hm3β
            (by rw [hteq]; omega) ⟨p2, by rw [hteq]; exact hts3⟩
            (Or.inl ⟨by simp, hsv8, hsvge, by rw [hm3βsz, hszsv]⟩)).1
      · -- the word designates no block: the merge writes miss every header
        have hchain3 : IsChain m3 4 (endMark h) os := by
          refine chain_frame hchm2 ?_
          intro a ha
          have hane : a ≠ b - (v : Int) := fun hc => hβos (hc ▸ ha)
          rw [hm3def, wr_other _ _ _ _ (ne_of_mod8 (hmods a ha) hfoot8),
            wr_other _ _ _ _ hane]
        have hres := coalesceRight_inv hchain3 hsen3 hS8 hm3β
          (by rw [hteq]; omega) ⟨p2, by rw [hteq]; exact hts3⟩ (Or.inr hβos)
        exact ⟨hN8, hNm, hres.2, hres.1⟩
  · rw [if_neg hg]
    exact ⟨hN8, hNm, hmain.2, hmain.1⟩

/-- `IsChain` is decidable, so concrete heap states can be checked. -/
def decIsChain (m : Mem) : (os : List Int) → (o e : Int) → Decidable (IsChain m o e os)
  | [], o, e => decidable_of_iff (o = e) Iff.rfl
  | a :: rest, o, e =>
    have : Decidable (IsChain m (o + (szOf (m o) : Int)) e rest) := decIsChain m rest _ _
    decidable_of_iff (a = o ∧ szOf (m o) % 8 = 0 ∧ 8 ≤ szOf (m o) ∧
      IsChain m (o + (szOf (m o) : Int)) e rest) Iff.rfl

instance (m : Mem) (o e : Int) (os : List Int) : Decidable (IsChain m o e os) :=
  decIsChain m os o e

/-- Every reachable heap satisfies the structural invariant. -/
theorem reach_inv (h : Heap) (hr : Reach h) : Inv h := by
  induction hr with
  | init N hm h8 => exact inv_init N hm h8
  | alloc h sz hr ih => exact inv_balloc h sz ih
  | free h ptr hr hvf ih => exact inv_bfree h ptr ih hvf

deriving instance DecidableEq for Except

/-! ### The claims -/

/-- Claim C2, evaluated at a failing input: after `init(48)`, two
allocations (returning payloads 8 and 16) and a successful free of the
first block, the first block is free (`size_status` even) but the
second block's header still carries `prev_allocated = 1` — the p-bit
does not match the actual status of the predecessor, contradicting the
spec and the header comment of the source. -/
theorem claim_C2_pbit_code_bug :
    ((balloc (mkHeap 48) 1).1 = Except.ok 8) ∧
    ((balloc (balloc (mkHeap 48) 1).2 1).1 = Except.ok 16) ∧
    ((bfree (balloc (balloc (mkHeap 48) 1).2 1).2 8).1 = none) ∧
    ((bfree (balloc (balloc (mkHeap 48) 1).2 1).2 8).2.mem 4) % 2 = 0 ∧
    ((bfree (balloc (balloc (mkHeap 48) 1).2 1).2 8).2.mem 12) &&& 2 = 2 := by
  decide

/-- Claim C3, evaluated at a failing input: the 7-call sequence
`alloc 1, alloc 1, free 16, free 8, alloc 5, alloc 1, free 24` (every
freed pointer was returned by an earlier allocation and not yet freed)
leaves two address-adjacent blocks, at offsets 20 and 28, both free
after the last `free` returns with success — the single-pass coalescing
of `bfree` does not restore the no-two-adjacent-free-blocks invariant:
its left-neighbour probe trusts the word before the block as a footer,
and here that word is a stale footer from an earlier configuration. -/
theorem claim_C3_adjacent_free_code_bug :
    ((balloc (mkHeap 48) 1).1 = Except.ok 8) ∧
    ((balloc (balloc (mkHeap 48) 1).2 1).1 = Except.ok 16) ∧
    ((bfree (balloc (balloc (mkHeap 48) 1).2 1).2 16).1 = none) ∧
    ((bfree (bfree (balloc (balloc (mkHeap 48) 1).2 1).2 16).2 8).1 = none) ∧
    ((balloc (bfree (bfree (balloc (balloc (mkHeap 48) 1).2 1).2 16).2 8).2 5).1
      = Except.ok 8) ∧
    ((balloc (balloc (bfree (bfree (balloc (balloc (mkHeap 48) 1).2 1).2 16).2 8).2 5).2 1).1
      = Except.ok 24) ∧
    ((bfree (balloc (balloc (bfree (bfree (balloc (balloc (mkHeap 48) 1).2 1).2 16).2 8).2 5).2 1).2 24).1 = none) ∧
    IsChain (bfree (balloc (balloc (bfree (bfree (balloc (balloc (mkHeap 48) 1).2 1).2 16).2 8).2 5).2 1).2 24).2.mem 4 (endMark (bfree (balloc (balloc (bfree (bfree (balloc (balloc (mkHeap 48) 1).2 1).2 16).2 8).2 5).2 1).2 24).2) [4, 20, 28] ∧
    ((bfree (balloc (balloc (bfree (bfree (balloc (balloc (mkHeap 48) 1).2 1).2 16).2 8).2 5).2 1).2 24).2.mem 20) % 2 = 0 ∧
    ((bfree (balloc (balloc (bfree (bfree (balloc (balloc (mkHeap 48) 1).2 1).2 16).2 8).2 5).2 1).2 24).2.mem 28) % 2 = 0 ∧
    (20 : Int) + (szOf ((bfree (balloc (balloc (bfree (bfree (balloc (balloc (mkHeap 48) 1).2 1).2 16).2 8).2 5).2 1).2 24).2.mem 20) : Int) = 28 := by
  decide

/-- Claim C4: on every heap reachable by `init_heap` and any sequence of
`balloc` and contract-respecting `bfree` calls, the block headers tile
the region exactly: the sum of all block sizes plus the 4-byte end-mark
word equals the size of the managed region (`alloc_size + 4` bytes,
from `heap_start` through the end mark). -/
theorem claim_C4_size_conservation (h : Heap) (hr : Reach h) :
    ∃ os, IsChain h.mem 4 (endMark h) os ∧
      (os.map fun a => szOf (h.mem a)).sum + 4 = h.N + 4 := by
  obtain ⟨hN8, hNm, hsen, os, hch⟩ := reach_inv h hr
  refine ⟨os, hch, ?_⟩
  have h1 := chain_sum hch
  have h2 : endMark h = 4 + (h.N : Int) := rfl
  rw [h2] at h1
  omega

theorem claim_C4_size_conservation_witness :
    ∃ os, IsChain (bfree (balloc (balloc (bfree (bfree (balloc (balloc (mkHeap 48) 1).2 1).2 16).2 8).2 5).2 1).2 24).2.mem 4 (endMark (bfree (balloc (balloc (bfree (bfree (balloc (balloc (mkHeap 48) 1).2 1).2 16).2 8).2 5).2 1).2 24).2) os ∧
      (os.map fun a => szOf ((bfree (balloc (balloc (bfree (bfree (balloc (balloc (mkHeap 48) 1).2 1).2 16).2 8).2 5).2 1).2 24).2.mem a)).sum + 4 = (bfree (balloc (balloc (bfree (bfree (balloc (balloc (mkHeap 48) 1).2 1).2 16).2 8).2 5).2 1).2 24).2.N + 4 :=
  claim_C4_size_conservation _
    (Reach.free _ 24
      (Reach.alloc _ 1 (Reach.alloc _ 5
        (Reach.free _ 8
          (Reach.free _ 16
            (Reach.alloc _ 1 (Reach.alloc _ 1 (Reach.init 48 (by decide) (by decide))))
            ⟨[4, 12, 20], by decide, by decide, by decide⟩)
          ⟨[4, 12], by decide, by decide, by decide⟩)))
      ⟨[4, 20, 28], by decide, by decide, by decide⟩)

/-- Claim C10 fails as stated: a successful allocation that takes the
last block sets the p-bit of the end-mark word, so the end sentinel's
value does change (from 1 to 3). -/
theorem claim_C10_counterexample :
    ((balloc (mkHeap 8) 1).1 = Except.ok 8) ∧
    (mkHeap 8).mem 12 = 1 ∧ (balloc (mkHeap 8) 1).2.mem 12 = 3 := by
  decide

/-- Claim C5 fails as stated: after allocating the whole 8-byte region
(which sets the end mark's p-bit, making it 3), freeing the pointer 16 —
whose computed header address 12 is exactly the end sentinel, an
out-of-range free — is not rejected: `bfree` returns success and
mutates the region (the end-mark word is overwritten). -/
theorem claim_C5_counterexample :
    ((balloc (mkHeap 8) 1).1 = Except.ok 8) ∧
    ((bfree (balloc (mkHeap 8) 1).2 16).1 = none) ∧
    ((balloc (mkHeap 8) 1).2.mem 12 = 3) ∧
    ((bfree (balloc (mkHeap 8) 1).2 16).2.mem 12 = 0) := by
  decide

theorem szOf_even (y : Nat) : szOf y % 2 = 0 := by
  unfold szOf
  omega

theorem coalesceRight_frame_at (m : Mem) (blk : Int) (bs : Nat) (x : Int)
    (hxb : x ≠ blk)
    (hxf : x ≠ blk + (bs : Int) + (szOf (m (blk + (bs : Int))) : Int) - 4) :
    (coalesceRight m blk bs) x = m x := by
  unfold coalesceRight
  by_cases hc : m (blk + (bs : Int)) ≠ 1 ∧ (m (blk + (bs : Int))) % 2 = 0
  · rw [if_pos hc, wr_other _ _ _ _ hxf, wr_other _ _ _ _ hxb]
  · rw [if_neg hc]

theorem coalesceRight_mod2_at (m : Mem) (blk : Int) (bs : Nat) (x : Int)
    (hxf : x ≠ blk + (bs : Int) + (szOf (m (blk + (bs : Int))) : Int) - 4)
    (hm : (m x) % 2 = 0) (hbs : bs % 2 = 0) :
    ((coalesceRight m blk bs) x) % 2 = 0 := by
  unfold coalesceRight
  by_cases hc : m (blk + (bs : Int)) ≠ 1 ∧ (m (blk + (bs : Int))) % 2 = 0
  · rw [if_pos hc, wr_other _ _ _ _ hxf]
    by_cases hxb : x = blk
    · subst hxb
      rw [wr_same]
      have := szOf_even (m (x + (bs : Int)))
      omega
    · rw [wr_other _ _ _ _ hxb]
      exact hm
  · rw [if_neg hc]
    exact hm

/-- A contract-respecting `bfree` succeeds and leaves the freed block's
a-bit cleared, so a second free of the same pointer hits the
already-free check. -/
theorem bfree_clears (h : Heap) (ptr : Int) (hinv : Inv h) (hvf : ValidFree h ptr) :
    (bfree h ptr).1 = none ∧ ((bfree h ptr).2.mem (ptr - 4)) % 2 = 0 := by
  obtain ⟨hN8, hNm, hsen, os0, hch0⟩ := hinv
  obtain ⟨os, hch, hbmem, hodd⟩ := hvf
  have hmods : ∀ a ∈ os, a % 8 = 4 := chain_mem_mod hch (by decide)
  have hb8 : (ptr - 4) % 8 = 4 := hmods _ hbmem
  obtain ⟨p1, p2, hoseq, hc1, hcb⟩ := chain_split hch hbmem
  obtain ⟨-, hbm8, hbge, hrest⟩ := hcb
  have hbnd := chain_mem_bounds hch _ hbmem
  have hsI : (8 : Int) ≤ (szOf (h.mem (ptr - 4)) : Int) := by exact_mod_cast hbge
  have hsmI : (szOf (h.mem (ptr - 4)) : Int) % 8 = 0 := by exact_mod_cast hbm8
  have hne1 : h.mem (ptr - 4) ≠ 1 := by
    have := szOf_le (h.mem (ptr - 4))
    omega
  rw [bfree_success_eq (by omega) (by omega) hodd (by omega) hne1]
  refine ⟨rfl, ?_⟩
  set b : Int := ptr - 4 with hbdef
  set s : Nat := szOf (h.mem b) with hsdef
  set m2 : Mem := wr (wr h.mem b s) (b + (s : Int) - 4) s with hm2def
  have hfootne : b + (s : Int) - 4 ≠ b := by omega
  have hm2b : m2 b = s := by
    rw [hm2def, wr_other _ _ _ _ hfootne.symm, wr_same]
  have hm2bsz : szOf (m2 b) = s := by
    rw [hm2b, hsdef, szOf_szOf]
  have hseven : s % 2 = 0 := by
    rw [hsdef]
    exact szOf_even _
  rw [coalesce_eq]
  have hv1 : m2 (b - 4) = h.mem (b - 4) := by
    rw [hm2def, wr_other _ _ _ _ (by omega), wr_other _ _ _ _ (by omega)]
  rw [hv1, hm2bsz]
  set v : Nat := h.mem (b - 4) with hvdef
  have hβ : b - 4 - (v : Int) + 4 = b - (v : Int) := by ring
  rw [hβ]
  have hbase : ((coalesceRight m2 b s) b) % 2 = 0 := by
    refine coalesceRight_mod2_at m2 b s b ?_ (by rw [hm2b]; exact hseven) hseven
    have h0 : (0 : Int) ≤ (szOf (m2 (b + (s : Int))) : Int) := by positivity
    omega
  by_cases hg : 4 ≤ b - 4 ∧ (m2 (b - (v : Int))) % 2 = 0
  · rw [if_pos hg]
    by_cases hv0 : v = 0
    · rw [hv0]
      simp only [Nat.cast_zero, sub_zero, Nat.add_zero]
      rw [wr_self2 _ _ _ hm2b]
      have hm2foot : m2 (b + (s : Int) - 4) = s := by
        rw [hm2def, wr_same]
      rw [wr_self2 _ _ _ hm2foot]
      exact hbase
    · have hvpos : 1 ≤ (v : Int) := by
        have : 0 < v := Nat.pos_of_ne_zero hv0
        exact_mod_cast this
      set m3 : Mem := wr (wr m2 (b - (v : Int)) (s + v)) (b + (s : Int) - 4) (s + v)
        with hm3def
      have hm3b : m3 b = s := by
        rw [hm3def, wr_other _ _ _ _ hfootne.symm, wr_other _ _ _ _ (by omega), hm2b]
      have hfr : (coalesceRight m3 (b - (v : Int)) (s + v)) b = m3 b := by
        refine coalesceRight_frame_at _ _ _ _ (by omega) ?_
        have h0 : (0 : Int) ≤ (szOf (m3 (b - (v : Int) + ((s + v : Nat) : Int))) : Int) := by
          positivity
        have hc : b - (v : Int) + ((s + v : Nat) : Int) = b + (s : Int) := by
          push_cast
          ring
        omega
      show (coalesceRight m3 (b - (v : Int)) (s + v)) b % 2 = 0
      rw [hfr, hm3b]
      exact hseven
  · rw [if_neg hg]
    exact hbase

theorem bfree_doubleFree_eq (h : Heap) (ptr : Int) (h0 : ptr ≠ 0) (h8 : ptr % 8 = 0)
    (heven : (h.mem (ptr - 4)) % 2 = 0) :
    bfree h ptr = (some FreeErr.doubleFree, h) := by
  unfold bfree
  rw [if_neg h0, if_neg (by omega : ¬ ptr % 8 ≠ 0), if_pos heven]

/-- Claim C5, amended to match the source: the validation checks run in
the order NullPointer, Misaligned, DoubleFree, OutOfRange (already-free
is tested before the range test), every validation failure leaves the
heap unchanged, and for a contract-respecting pointer the free succeeds
and a second free of the same pointer reports DoubleFree.  As the
counterexample shows, the out-of-range test recognizes the end sentinel
only by its word being exactly 1, so it misses it once the sentinel's
p-bit has been set. -/
theorem claim_C5_free_validation (h : Heap) (ptr : Int) :
    ((bfree h ptr).1 =
      (if ptr = 0 then some FreeErr.nullPointer
       else if ptr % 8 ≠ 0 then some FreeErr.misaligned
       else if (h.mem (ptr - 4)) % 2 = 0 then some FreeErr.doubleFree
       else if ptr - 4 < 4 ∨ h.mem (ptr - 4) = 1 then some FreeErr.outOfRange
       else none)) ∧
    (∀ e, (bfree h ptr).1 = some e → (bfree h ptr).2 = h) ∧
    (Reach h → ValidFree h ptr →
      (bfree h ptr).1 = none ∧ (bfree (bfree h ptr).2 ptr).1 = some FreeErr.doubleFree) := by
  refine ⟨?_, ?_, ?_⟩
  · simp only [bfree]
    split_ifs <;> rfl
  · intro e he
    simp only [bfree] at he ⊢
    split_ifs at he ⊢ <;> rfl
  · intro hr hvf
    have hcl := bfree_clears h ptr (reach_inv h hr) hvf
    refine ⟨hcl.1, ?_⟩
    obtain ⟨os, hch, hbmem, hodd⟩ := hvf
    have hmods : ∀ a ∈ os, a % 8 = 4 := chain_mem_mod hch (by decide)
    have hb8 : (ptr - 4) % 8 = 4 := hmods _ hbmem
    have hbnd := chain_mem_bounds hch _ hbmem
    rw [bfree_doubleFree_eq _ _ (by omega) (by omega) hcl.2]

/-- Claim C1: whenever some free block can satisfy the (rounded) request,
`balloc` selects — through `best_block` — a free fitting block that is
strictly smaller than every free fitting block before it in address
order and no larger than every free fitting block after it: the
smallest free block that fits, ties resolved to the lowest address. -/
theorem claim_C1_best_fit (h : Heap) (os : List Int) (sz : Int)
    (hch : IsChain h.mem 4 (endMark h) os)
    (hsen : szOf (h.mem (endMark h)) = 0)
    (h1 : 1 ≤ sz)
    (hex : ∃ o ∈ os, FreeFit h.mem (roundedSize sz) o) :
    ∃ fit os1 os2, (balloc h sz).1 = Except.ok (fit + 4) ∧
      os = os1 ++ fit :: os2 ∧ FreeFit h.mem (roundedSize sz) fit ∧
      (∀ o ∈ os1, FreeFit h.mem (roundedSize sz) o → szOf (h.mem fit) < szOf (h.mem o)) ∧
      (∀ o ∈ os2, FreeFit h.mem (roundedSize sz) o → szOf (h.mem fit) ≤ szOf (h.mem o)) := by
  cases hbb : best_block h (roundedSize sz) with
  | none =>
    exfalso
    obtain ⟨o, ho, hf⟩ := hex
    exact best_block_none hch hsen hbb o ho hf
  | some fit =>
    have hspec := best_block_eq_spec hch hsen (roundedSize sz)
    rw [hbb] at hspec
    have hc := (specBestAcc_char h.mem (roundedSize sz) os none).2 fit hspec.symm
    rcases hc with ⟨heq, -⟩ | ⟨os1, os2, heqq, hff, -, h1s, h2s⟩
    · cases heq
    · have hmem : fit ∈ os := by simp [heqq]
      obtain ⟨p1x, p2x, -, -, hcb⟩ := chain_split hch hmem
      obtain ⟨-, hm8, hge8, -⟩ := hcb
      have hres : (balloc h sz).1 = Except.ok (fit + 4) := by
        by_cases hsp : headerSize + 8 ≤ szOf (h.mem fit) - roundedSize sz
        · exact (balloc_split_mem (by omega) hbb hge8 hsp).1
        · exact (balloc_exact_mem (by omega) hbb hge8 hsp).1
      exact ⟨fit, os1, os2, hres, heqq, hff, h1s, h2s⟩

/-- The test heap of the spec's best-fit test vector: free blocks of
sizes 40, 24 and 32 in address order. -/
def exBest : Heap :=
  { mem := wr (wr (wr (wr zeroMem 4 40) 44 24) 68 32) 100 1, N := 96 }

theorem claim_C1_best_fit_witness :
    ∃ fit os1 os2, (balloc exBest 20).1 = Except.ok (fit + 4) ∧
      [4, 44, 68] = os1 ++ fit :: os2 ∧ FreeFit exBest.mem (roundedSize 20) fit ∧
      (∀ o ∈ os1, FreeFit exBest.mem (roundedSize 20) o →
        szOf (exBest.mem fit) < szOf (exBest.mem o)) ∧
      (∀ o ∈ os2, FreeFit exBest.mem (roundedSize 20) o →
        szOf (exBest.mem fit) ≤ szOf (exBest.mem o)) :=
  claim_C1_best_fit exBest [4, 44, 68] 20 (by decide) (by decide) (by decide)
    ⟨44, by decide, by decide⟩

/-- Claim C8: a request smaller than 1 fails with the invalid-size
reason, and a request whose rounded size exceeds the size of every free
block fails with the out-of-memory reason; in both cases the heap —
every header, footer and the end mark — is returned exactly unchanged. -/
theorem claim_C8_alloc_failure (h : Heap) (os : List Int) (sz : Int)
    (hch : IsChain h.mem 4 (endMark h) os)
    (hsen : szOf (h.mem (endMark h)) = 0) :
    (sz < 1 → balloc h sz = (Except.error AllocErr.invalidSize, h)) ∧
    (1 ≤ sz → (∀ o ∈ os, (h.mem o) % 2 = 0 → szOf (h.mem o) < roundedSize sz) →
      balloc h sz = (Except.error AllocErr.outOfMemory, h)) := by
  refine ⟨fun hlt => balloc_fail_size hlt, fun h1 hall => ?_⟩
  have hbb : best_block h (roundedSize sz) = none := by
    cases hbb2 : best_block h (roundedSize sz) with
    | none => rfl
    | some f =>
      exfalso
      obtain ⟨hmem, hfree, hle⟩ :=
        (fun p => ⟨p.1, p.2.1, p.2.2⟩ :
          f ∈ os ∧ FreeFit h.mem (roundedSize sz) f →
          f ∈ os ∧ (h.mem f) % 2 = 0 ∧ roundedSize sz ≤ szOf (h.mem f))
        (best_block_some hch hsen hbb2)
      have := hall f hmem hfree
      omega
  exact balloc_fail_oom (by omega) hbb

theorem claim_C8_alloc_failure_witness :
    ((100 : Int) < 1 → balloc (mkHeap 16) 100 = (Except.error AllocErr.invalidSize, mkHeap 16)) ∧
    ((1 : Int) ≤ 100 →
      (∀ o ∈ [(4 : Int)], ((mkHeap 16).mem o) % 2 = 0 →
        szOf ((mkHeap 16).mem o) < roundedSize 100) →
      balloc (mkHeap 16) 100 = (Except.error AllocErr.outOfMemory, mkHeap 16)) :=
  claim_C8_alloc_failure (mkHeap 16) [4] 100 (by decide) (by decide)

/-- Claim C9: every pointer returned by a successful allocation is a
multiple of 8 (its header sits at 4 mod 8), the allocated block's
header is marked allocated, and the block provides at least the
requested number of payload bytes (block size at least request + header). -/
theorem claim_C9_alignment (h : Heap) (sz : Int) (p : Int)
    (hr : Reach h)
    (hres : (balloc h sz).1 = Except.ok p) :
    p % 8 = 0 ∧ (p - 4) % 8 = 4 ∧
    ((balloc h sz).2.mem (p - 4)) % 2 = 1 ∧
    sz + 4 ≤ (szOf ((balloc h sz).2.mem (p - 4)) : Int) := by
  obtain ⟨hN8, hNm, hsen, os, hch⟩ := reach_inv h hr
  by_cases h1 : sz < 1
  · rw [balloc_fail_size h1] at hres
    simp at hres
  cases hbb : best_block h (roundedSize sz) with
  | none =>
    rw [balloc_fail_oom h1 hbb] at hres
    simp at hres
  | some fit =>
    obtain ⟨hmem, hfree, hle⟩ :=
      (fun q => ⟨q.1, q.2.1, q.2.2⟩ :
        fit ∈ os ∧ FreeFit h.mem (roundedSize sz) fit →
        fit ∈ os ∧ (h.mem fit) % 2 = 0 ∧ roundedSize sz ≤ szOf (h.mem fit))
      (best_block_some hch hsen hbb)
    obtain ⟨p1x, p2x, -, -, hcb⟩ := chain_split hch hmem
    obtain ⟨-, hm8, hge8, -⟩ := hcb
    have hmod : fit % 8 = 4 := chain_mem_mod hch (by decide) fit hmem
    have hround := roundedSize_bounds sz
    have hsztn : (sz.toNat : Int) = sz := by omega
    have hrle : (sz : Int) + 4 ≤ ((roundedSize sz : Nat) : Int) := by
      have h2 : sz.toNat + headerSize ≤ roundedSize sz := hround.1
      unfold headerSize at h2
      omega
    have hleI : ((roundedSize sz : Nat) : Int) ≤ (szOf (h.mem fit) : Int) := by
      exact_mod_cast hle
    by_cases hsp : headerSize + 8 ≤ szOf (h.mem fit) - roundedSize sz
    · obtain ⟨hres2, -, hmf, -, -, -⟩ := balloc_split_mem h1 hbb hge8 hsp
      rw [hres2] at hres
      have hp : p = fit + 4 := by
        cases hres
        rfl
      subst hp
      have hfiteq : fit + 4 - 4 = fit := by ring
      rw [hfiteq, hmf]
      refine ⟨by omega, by omega, mod_two_split_header _ _ (roundedSize_mod sz), ?_⟩
      rw [szOf_split_header _ _ (roundedSize_mod sz)]
      omega
    · obtain ⟨hres2, -, hmf, -, -⟩ := balloc_exact_mem h1 hbb hge8 hsp
      rw [hres2] at hres
      have hp : p = fit + 4 := by
        cases hres
        rfl
      subst hp
      have hfiteq : fit + 4 - 4 = fit := by ring
      rw [hfiteq, hmf]
      refine ⟨by omega, by omega, mod_two_lor_one _, ?_⟩
      rw [szOf_lor_one]
      omega

theorem claim_C9_alignment_witness :
    (8 : Int) % 8 = 0 ∧ ((8 : Int) - 4) % 8 = 4 ∧
    ((balloc (mkHeap 16) 1).2.mem ((8 : Int) - 4)) % 2 = 1 ∧
    (1 : Int) + 4 ≤ (szOf ((balloc (mkHeap 16) 1).2.mem ((8 : Int) - 4)) : Int) :=
  claim_C9_alignment (mkHeap 16) 1 8 (Reach.init 16 (by decide) (by decide)) (by decide)

/-- Claim C6: the needed size is the request plus the header size,
rounded up to the next multiple of 8; the chosen block is split exactly
when the leftover is at least header size + 8, producing an allocated
block of the needed size followed by a free block of the leftover size
with its own header and footer; otherwise the whole block is allocated
with its size unchanged. -/
theorem claim_C6_rounding_split (h : Heap) (os : List Int) (sz : Int) (p : Int)
    (hch : IsChain h.mem 4 (endMark h) os)
    (hsen : szOf (h.mem (endMark h)) = 0)
    (hres : (balloc h sz).1 = Except.ok p) :
    (roundedSize sz % 8 = 0 ∧ sz.toNat + headerSize ≤ roundedSize sz ∧
      roundedSize sz < sz.toNat + headerSize + 8) ∧
    ∃ fit, best_block h (roundedSize sz) = some fit ∧ p = fit + 4 ∧
      (headerSize + 8 ≤ szOf (h.mem fit) - roundedSize sz →
        szOf ((balloc h sz).2.mem fit) = roundedSize sz ∧
        ((balloc h sz).2.mem fit) % 2 = 1 ∧
        szOf ((balloc h sz).2.mem (fit + (roundedSize sz : Int))) =
          szOf (h.mem fit) - roundedSize sz ∧
        ((balloc h sz).2.mem (fit + (roundedSize sz : Int))) % 2 = 0 ∧
        (balloc h sz).2.mem (fit + (szOf (h.mem fit) : Int) - 4) =
          szOf (h.mem fit) - roundedSize sz) ∧
      (szOf (h.mem fit) - roundedSize sz < headerSize + 8 →
        szOf ((balloc h sz).2.mem fit) = szOf (h.mem fit) ∧
        ((balloc h sz).2.mem fit) % 2 = 1) := by
  by_cases h1 : sz < 1
  · rw [balloc_fail_size h1] at hres
    simp at hres
  refine ⟨⟨roundedSize_mod sz, (roundedSize_bounds sz).1, (roundedSize_bounds sz).2⟩, ?_⟩
  cases hbb : best_block h (roundedSize sz) with
  | none =>
    rw [balloc_fail_oom h1 hbb] at hres
    simp at hres
  | some fit =>
    obtain ⟨hmem, hfree, hle⟩ :=
      (fun q => ⟨q.1, q.2.1, q.2.2⟩ :
        fit ∈ os ∧ FreeFit h.mem (roundedSize sz) fit →
        fit ∈ os ∧ (h.mem fit) % 2 = 0 ∧ roundedSize sz ≤ szOf (h.mem fit))
      (best_block_some hch hsen hbb)
    obtain ⟨p1x, p2x, -, -, hcb⟩ := chain_split hch hmem
    obtain ⟨-, hm8, hge8, -⟩ := hcb
    refine ⟨fit, rfl, ?_, ?_, ?_⟩
    · by_cases hsp : headerSize + 8 ≤ szOf (h.mem fit) - roundedSize sz
      · have hd := balloc_split_mem h1 hbb hge8 hsp
        rw [hd.1] at hres
        cases hres
        rfl
      · have hd := balloc_exact_mem h1 hbb hge8 hsp
        rw [hd.1] at hres
        cases hres
        rfl
    · intro hsp
      obtain ⟨-, -, hmf, hmr, hmfoot, -⟩ := balloc_split_mem h1 hbb hge8 hsp
      have hrem8 : (szOf (h.mem fit) - roundedSize sz) % 8 = 0 := by
        have := roundedSize_mod sz
        omega
      refine ⟨?_, ?_, ?_, ?_, ?_⟩
      · rw [hmf]
        exact szOf_split_header _ _ (roundedSize_mod sz)
      · rw [hmf]
        exact mod_two_split_header _ _ (roundedSize_mod sz)
      · rw [hmr, szOf_lor_two]
        unfold szOf
        omega
      · rw [hmr, mod_two_lor_two]
        omega
      · rw [hmfoot]
    · intro hsp
      obtain ⟨-, -, hmf, -, -⟩ := balloc_exact_mem h1 hbb hge8 (by omega)
      rw [hmf, szOf_lor_one]
      exact ⟨rfl, mod_two_lor_one _⟩

theorem claim_C6_rounding_split_witness :
    ((roundedSize 1 % 8 = 0 ∧ (1 : Int).toNat + headerSize ≤ roundedSize 1 ∧
      roundedSize 1 < (1 : Int).toNat + headerSize + 8) ∧
    ∃ fit, best_block (mkHeap 48) (roundedSize 1) = some fit ∧ (8 : Int) = fit + 4 ∧
      (headerSize + 8 ≤ szOf ((mkHeap 48).mem fit) - roundedSize 1 →
        szOf ((balloc (mkHeap 48) 1).2.mem fit) = roundedSize 1 ∧
        ((balloc (mkHeap 48) 1).2.mem fit) % 2 = 1 ∧
        szOf ((balloc (mkHeap 48) 1).2.mem (fit + (roundedSize 1 : Int))) =
          szOf ((mkHeap 48).mem fit) - roundedSize 1 ∧
        ((balloc (mkHeap 48) 1).2.mem (fit + (roundedSize 1 : Int))) % 2 = 0 ∧
        (balloc (mkHeap 48) 1).2.mem (fit + (szOf ((mkHeap 48).mem fit) : Int) - 4) =
          szOf ((mkHeap 48).mem fit) - roundedSize 1) ∧
      (szOf ((mkHeap 48).mem fit) - roundedSize 1 < headerSize + 8 →
        szOf ((balloc (mkHeap 48) 1).2.mem fit) = szOf ((mkHeap 48).mem fit) ∧
        ((balloc (mkHeap 48) 1).2.mem fit) % 2 = 1)) :=
  claim_C6_rounding_split (mkHeap 48) [4] 1 8 (by decide) (by decide) (by decide)

/-- Claim C10, amended: a successful allocation writes at most the
chosen block's header, the remainder's header and footer (on a split),
and the word immediately following the allocated block (whose p-bit it
sets) — that word is the end sentinel when the allocated block is last,
so the sentinel is not always preserved.  Every word outside these four
positions is unchanged. -/
theorem claim_C10_frame (h : Heap) (sz : Int) (p : Int) (hr : Reach h)
    (hres : (balloc h sz).1 = Except.ok p) :
    (balloc h sz).2.N = h.N ∧
    ∀ q : Int, q ≠ p - 4 → q ≠ p - 4 + (roundedSize sz : Int) →
      q ≠ p - 4 + (szOf (h.mem (p - 4)) : Int) - 4 →
      q ≠ p - 4 + (szOf (h.mem (p - 4)) : Int) →
      (balloc h sz).2.mem q = h.mem q := by
  obtain ⟨hN8, hNm, hsen, os, hch⟩ := reach_inv h hr
  by_cases h1 : sz < 1
  · rw [balloc_fail_size h1] at hres
    simp at hres
  cases hbb : best_block h (roundedSize sz) with
  | none =>
    rw [balloc_fail_oom h1 hbb] at hres
    simp at hres
  | some fit =>
    obtain ⟨hmem, hfree, hle⟩ :=
      (fun q => ⟨q.1, q.2.1, q.2.2⟩ :
        fit ∈ os ∧ FreeFit h.mem (roundedSize sz) fit →
        fit ∈ os ∧ (h.mem fit) % 2 = 0 ∧ roundedSize sz ≤ szOf (h.mem fit))
      (best_block_some hch hsen hbb)
    obtain ⟨p1x, p2x, -, -, hcb⟩ := chain_split hch hmem
    obtain ⟨-, hm8, hge8, -⟩ := hcb
    by_cases hsp : headerSize + 8 ≤ szOf (h.mem fit) - roundedSize sz
    · obtain ⟨hres2, hN, -, -, -, hframe⟩ := balloc_split_mem h1 hbb hge8 hsp
      rw [hres2] at hres
      have hp : p = fit + 4 := by
        cases hres
        rfl
      subst hp
      have hfiteq : fit + 4 - 4 = fit := by ring
      rw [hfiteq]
      exact ⟨hN, fun q hq1 hq2 hq3 hq4 => hframe q hq1 hq2 hq3⟩
    · obtain ⟨hres2, hN, -, -, hframe⟩ := balloc_exact_mem h1 hbb hge8 hsp
      rw [hres2] at hres
      have hp : p = fit + 4 := by
        cases hres
        rfl
      subst hp
      have hfiteq : fit + 4 - 4 = fit := by ring
      rw [hfiteq]
      exact ⟨hN, fun q hq1 hq2 hq3 hq4 => hframe q hq1 hq4⟩

theorem claim_C10_frame_witness :
    (balloc (mkHeap 48) 1).2.N = (mkHeap 48).N ∧
    ∀ q : Int, q ≠ (8 : Int) - 4 → q ≠ (8 : Int) - 4 + (roundedSize 1 : Int) →
      q ≠ (8 : Int) - 4 + (szOf ((mkHeap 48).mem ((8 : Int) - 4)) : Int) - 4 →
      q ≠ (8 : Int) - 4 + (szOf ((mkHeap 48).mem ((8 : Int) - 4)) : Int) →
      (balloc (mkHeap 48) 1).2.mem q = (mkHeap 48).mem q :=
  claim_C10_frame (mkHeap 48) 1 8 (Reach.init 48 (by decide) (by decide)) (by decide)

theorem mkHeap_sen (N : Nat) (h8 : 8 ≤ N) :
    szOf ((mkHeap N).mem (endMark (mkHeap N))) = 0 := by
  have he : endMark (mkHeap N) = 4 + (N : Int) := rfl
  rw [he, mkHeap_mem_end h8]
  decide

theorem mkHeap_chain (N : Nat) (hm : N % 8 = 0) (h8 : 8 ≤ N) :
    IsChain (mkHeap N).mem 4 (endMark (mkHeap N)) [4] := by
  have hs : (mkHeap N).mem 4 = N + 2 := mkHeap_mem_start h8
  have hsz : szOf ((mkHeap N).mem 4) = N := by
    rw [hs]
    unfold szOf
    omega
  refine ⟨rfl, by rw [hsz]; exact hm, by rw [hsz]; exact h8, ?_⟩
  show IsChain (mkHeap N).mem (4 + (szOf ((mkHeap N).mem 4) : Int)) (endMark (mkHeap N)) []
  rw [hsz]
  rfl

theorem mkHeap_best (N : Nat) (size : Nat) (hm : N % 8 = 0) (h8 : 8 ≤ N)
    (hle : size ≤ N) :
    best_block (mkHeap N) size = some 4 := by
  rw [best_block_eq_spec (mkHeap_chain N hm h8) (mkHeap_sen N h8) size]
  have hs : (mkHeap N).mem 4 = N + 2 := mkHeap_mem_start h8
  have hsz : szOf ((mkHeap N).mem 4) = N := by
    rw [hs]
    unfold szOf
    omega
  simp only [specBestAcc, pickBest]
  rw [if_pos ⟨by rw [hs]; omega, by rw [hsz]; exact hle⟩]

/-- Claim C7 fails as stated: allocate(1) then free on a fresh 8-byte
region does not restore the region "as it was after init": the single
free block's header becomes 8 (its p-bit, set to 1 by init, is
cleared), and the end mark keeps the p-bit set by the allocation
(3 instead of 1). -/
theorem claim_C7_counterexample :
    ((balloc (mkHeap 8) 1).1 = Except.ok 8) ∧
    ((bfree (balloc (mkHeap 8) 1).2 8).1 = none) ∧
    ((bfree (balloc (mkHeap 8) 1).2 8).2.mem 4 = 8) ∧ ((mkHeap 8).mem 4 = 10) ∧
    ((bfree (balloc (mkHeap 8) 1).2 8).2.mem 12 = 3) ∧ ((mkHeap 8).mem 12 = 1) := by
  decide

/-- Claim C7, amended: on a fresh region of usable size `N`, an
allocation that fits followed immediately by a free of the returned
pointer restores a single free block spanning the whole usable region
with a matching footer — but not bit-identically to the post-init
state: the restored header is exactly `N` (init wrote `N + 2`: the
p-bit is lost), and when the allocation consumed the whole block the
end mark keeps the p-bit set by the allocation (3 instead of 1). -/
theorem claim_C7_roundtrip (N : Nat) (sz : Int) (hm : N % 8 = 0) (h8 : 8 ≤ N)
    (h1 : 1 ≤ sz) (hle : roundedSize sz ≤ N) :
    (balloc (mkHeap N) sz).1 = Except.ok 8 ∧
    (bfree (balloc (mkHeap N) sz).2 8).1 = none ∧
    (bfree (balloc (mkHeap N) sz).2 8).2.mem 4 = N ∧
    (bfree (balloc (mkHeap N) sz).2 8).2.mem ((N : Int)) = N ∧
    IsChain (bfree (balloc (mkHeap N) sz).2 8).2.mem 4
      (endMark (bfree (balloc (mkHeap N) sz).2 8).2) [4] ∧
    (bfree (balloc (mkHeap N) sz).2 8).2.mem (4 + (N : Int)) =
      (if N < roundedSize sz + headerSize + 8 then 3 else 1) := by
  have hrm : roundedSize sz % 8 = 0 := roundedSize_mod sz
  have hrge : 8 ≤ roundedSize sz := roundedSize_ge h1
  have hbb : best_block (mkHeap N) (roundedSize sz) = some 4 := mkHeap_best N _ hm h8 hle
  have hstart : (mkHeap N).mem 4 = N + 2 := mkHeap_mem_start h8
  have hsz0 : szOf ((mkHeap N).mem 4) = N := by
    rw [hstart]
    unfold szOf
    omega
  have hge8x : 8 ≤ szOf ((mkHeap N).mem 4) := by omega
  have h84 : (8 : Int) - 4 = 4 := by norm_num
  have h44 : (4 : Int) + 4 = 8 := by norm_num
  by_cases hsp : headerSize + 8 ≤ szOf ((mkHeap N).mem 4) - roundedSize sz
  · -- the allocation splits the block
    have hspN : roundedSize sz + 12 ≤ N := by
      unfold headerSize at hsp
      omega
    obtain ⟨hres, hN, hmf, hmr, hmfoot, hframe⟩ := balloc_split_mem (by omega) hbb hge8x hsp
    have hhdrval : (balloc (mkHeap N) sz).2.mem 4 = roundedSize sz + 3 := by
      rw [hmf, split_header _ _ hrm, hstart]
      have hq : (N + 2) / 2 % 2 = 1 := by omega
      rw [hq]
    have hmr2 : (balloc (mkHeap N) sz).2.mem (4 + (roundedSize sz : Int)) =
        (N - roundedSize sz) + 2 := by
      rw [hmr, hsz0]
      exact lor_two_even _ (by omega)
    rw [hsz0] at hmfoot
    have hNpos : (4 : Int) + (N : Int) - 4 = (N : Int) := by ring
    rw [hNpos] at hmfoot
    have hsent1 : (balloc (mkHeap N) sz).2.mem (4 + (N : Int)) = 1 := by
      rw [hframe (4 + (N : Int)) (by omega) (by omega) (by rw [hsz0]; omega),
        mkHeap_mem_end h8]
    have hodd : ((balloc (mkHeap N) sz).2.mem ((8 : Int) - 4)) % 2 = 1 := by
      rw [h84, hhdrval]
      omega
    have hne1b : (balloc (mkHeap N) sz).2.mem ((8 : Int) - 4) ≠ 1 := by
      rw [h84, hhdrval]
      omega
    rw [bfree_success_eq (by norm_num) (by norm_num) hodd (by norm_num) hne1b]
    simp only [h84]
    have hsA : szOf ((balloc (mkHeap N) sz).2.mem 4) = roundedSize sz := by
      rw [hhdrval]
      unfold szOf
      omega
    simp only [hsA]
    have hposr : (4 : Int) + ((roundedSize sz : Nat) : Int) - 4 = ((roundedSize sz : Nat) : Int) := by
      ring
    simp only [hposr]
    rw [coalesce_eq]
    rw [if_neg (by rintro ⟨hc, -⟩; omega)]
    have hrne4 : ((roundedSize sz : Nat) : Int) ≠ 4 := by
      have : (8 : Int) ≤ ((roundedSize sz : Nat) : Int) := by exact_mod_cast hrge
      omega
    have hm2p4 : (wr (wr (balloc (mkHeap N) sz).2.mem 4 (roundedSize sz))
        ((roundedSize sz : Nat) : Int) (roundedSize sz)) 4 = roundedSize sz := by
      rw [wr_other _ _ _ _ (Ne.symm hrne4), wr_same]
    rw [hm2p4]
    have hszr : szOf (roundedSize sz) = roundedSize sz := by
      unfold szOf
      omega
    rw [hszr]
    have hrI : (8 : Int) ≤ ((roundedSize sz : Nat) : Int) := by exact_mod_cast hrge
    have hnext : (wr (wr (balloc (mkHeap N) sz).2.mem 4 (roundedSize sz))
        ((roundedSize sz : Nat) : Int) (roundedSize sz)) (4 + ((roundedSize sz : Nat) : Int)) =
        (N - roundedSize sz) + 2 := by
      rw [wr_other _ _ _ _ (by omega), wr_other _ _ _ _ (by omega)]
      exact hmr2
    simp only [coalesceRight]
    rw [hnext]
    rw [if_pos ⟨by omega, by omega⟩]
    have hszrem : szOf ((N - roundedSize sz) + 2) = N - roundedSize sz := by
      unfold szOf
      omega
    rw [hszrem]
    have hsum : roundedSize sz + (N - roundedSize sz) = N := by omega
    rw [hsum]
    have hpos2 : (4 : Int) + ((roundedSize sz : Nat) : Int) +
        ((N - roundedSize sz : Nat) : Int) - 4 = (N : Int) := by
      have : ((N - roundedSize sz : Nat) : Int) = (N : Int) - ((roundedSize sz : Nat) : Int) := by
        push_cast [Nat.cast_sub hle]
        ring
      omega
    rw [hpos2]
    have hNne4 : (N : Int) ≠ 4 := by omega
    refine ⟨by rw [hres, h44], trivial, ?_, ?_, ?_, ?_⟩
    · show (wr _ _ _ : Mem) 4 = N
      rw [wr_other _ _ _ _ (Ne.symm hNne4), wr_same]
    · show (wr _ _ _ : Mem) (N : Int) = N
      rw [wr_same]
    · refine ⟨rfl, ?_, ?_, ?_⟩
      · show szOf ((wr _ _ _ : Mem) 4) % 8 = 0
        rw [wr_other _ _ _ _ (Ne.symm hNne4), wr_same]
        unfold szOf
        omega
      · show 8 ≤ szOf ((wr _ _ _ : Mem) 4)
        rw [wr_other _ _ _ _ (Ne.symm hNne4), wr_same]
        unfold szOf
        omega
      · show IsChain _ (4 + (szOf ((wr _ _ _ : Mem) 4) : Int)) _ []
        rw [wr_other _ _ _ _ (Ne.symm hNne4), wr_same]
        have hszN : szOf N = N := by
          unfold szOf
          omega
        rw [hszN]
        show (4 : Int) + (N : Int) = endMark _
        show (4 : Int) + (N : Int) = 4 + ((balloc (mkHeap N) sz).2.N : Int)
        rw [hN]
        rfl
    · show (wr _ _ _ : Mem) (4 + (N : Int)) = _
      rw [wr_other _ _ _ _ (by omega), wr_other _ _ _ _ (by omega),
        wr_other _ _ _ _ (by omega), wr_other _ _ _ _ (by omega), hsent1,
        if_neg (by omega)]
  · -- the allocation takes the whole block
    have hspN : N < roundedSize sz + 12 := by
      unfold headerSize at hsp
      omega
    obtain ⟨hres, hN, hmf, hmn, hframe⟩ := balloc_exact_mem (by omega) hbb hge8x hsp
    have hhdrval : (balloc (mkHeap N) sz).2.mem 4 = N + 3 := by
      rw [hmf, hstart, lor_one_even _ (by omega)]
    rw [hsz0] at hmn
    have hsent3 : (balloc (mkHeap N) sz).2.mem (4 + (N : Int)) = 3 := by
      rw [hmn, mkHeap_mem_end h8]
      decide
    have hodd : ((balloc (mkHeap N) sz).2.mem ((8 : Int) - 4)) % 2 = 1 := by
      rw [h84, hhdrval]
      omega
    have hne1b : (balloc (mkHeap N) sz).2.mem ((8 : Int) - 4) ≠ 1 := by
      rw [h84, hhdrval]
      omega
    rw [bfree_success_eq (by norm_num) (by norm_num) hodd (by norm_num) hne1b]
    simp only [h84]
    have hsA : szOf ((balloc (mkHeap N) sz).2.mem 4) = N := by
      rw [hhdrval]
      unfold szOf
      omega
    simp only [hsA]
    have hposr : (4 : Int) + (N : Int) - 4 = (N : Int) := by ring
    simp only [hposr]
    rw [coalesce_eq]
    rw [if_neg (by rintro ⟨hc, -⟩; omega)]
    have hNne4 : (N : Int) ≠ 4 := by omega
    have hm2p4 : (wr (wr (balloc (mkHeap N) sz).2.mem 4 N) ((N : Int)) N) 4 = N := by
      rw [wr_other _ _ _ _ (Ne.symm hNne4), wr_same]
    rw [hm2p4]
    have hszN : szOf N = N := by
      unfold szOf
      omega
    rw [hszN]
    have hnext : (wr (wr (balloc (mkHeap N) sz).2.mem 4 N) ((N : Int)) N) (4 + (N : Int)) = 3 := by
      rw [wr_other _ _ _ _ (by omega), wr_other _ _ _ _ (by omega)]
      exact hsent3
    simp only [coalesceRight]
    rw [hnext]
    rw [if_neg (by rintro ⟨-, hc⟩; omega)]
    refine ⟨by rw [hres, h44], trivial, hm2p4, by rw [wr_same], ?_, by rw [hnext, if_pos (by omega)]⟩
    refine ⟨rfl, ?_, ?_, ?_⟩
    · rw [hm2p4]
      unfold szOf
      omega
    · rw [hm2p4]
      unfold szOf
      omega
    · rw [hm2p4, hszN]
      show (4 : Int) + (N : Int) = endMark _
      show (4 : Int) + (N : Int) = 4 + ((balloc (mkHeap N) sz).2.N : Int)
      rw [hN]
      rfl

theorem claim_C7_roundtrip_witness :
    ((balloc (mkHeap 24) 5).1 = Except.ok 8 ∧
    (bfree (balloc (mkHeap 24) 5).2 8).1 = none ∧
    (bfree (balloc (mkHeap 24) 5).2 8).2.mem 4 = 24 ∧
    (bfree (balloc (mkHeap 24) 5).2 8).2.mem ((24 : Nat) : Int) = 24 ∧
    IsChain (bfree (balloc (mkHeap 24) 5).2 8).2.mem 4
      (endMark (bfree (balloc (mkHeap 24) 5).2 8).2) [4] ∧
    (bfree (balloc (mkHeap 24) 5).2 8).2.mem (4 + ((24 : Nat) : Int)) =
      (if 24 < roundedSize 5 + headerSize + 8 then 3 else 1)) :=
  claim_C7_roundtrip 24 5 (by decide) (by decide) (by decide) (by decide)

end P3Heap
